import Mathlib

/-!
# Verification of the `split` expense-sharing application

Shallow embedding of the settlement engine (`src/split.js`), the session
store (`database/db.js`) and the public session-data endpoints
(`server.js`), together with proofs of the specification claims about them.

Conventions of the embedding:

* JavaScript numbers that the settlement engine turns into integer cents
  are represented by their integer-cent value directly (`Int`).  The source
  function `toCents` rounds a finite double to cents; a finite double is
  embedded as the constructor `JsAmount.finite c` carrying the rounded cent
  value `c` that `toCents` produces for it, so every reachable cent value
  is covered; `NaN` and the two infinities keep dedicated constructors
  because `toCents` tests `Number.isFinite`.
* `fromCents` followed by `toCents` is the identity on the cent values the
  program produces, so transfers carry their amount in cents
  (`amountCents`).
* `localeCompare` (used only as a deterministic tie-breaker inside a sort)
  is embedded as code-point lexicographic comparison; no claim depends on
  the tie-break order.
* The SQLite table of `database/db.js` is embedded as a list of rows; SQL
  `WHERE` clauses become list filters, `UPDATE` becomes `map`, and
  `result.changes` is the number of matched rows.
-/

/-- Whitespace test used by JavaScript `String.prototype.trim`. -/
def jsWhite (c : Char) : Bool := c.isWhitespace

/-- JavaScript `String.prototype.trim`: strip leading and trailing
whitespace (called by `normalizeParticipants` in `src/split.js`). -/
def jsTrim (s : String) : String :=
  String.mk (((s.data.dropWhile jsWhite).reverse.dropWhile jsWhite).reverse)

/-- One decimal digit character. -/
def decDigitChar (d : ℕ) : Char := Char.ofNat (48 + d)

/-- Digit-extraction loop; the first argument is fuel bounding the number
of divisions by ten (`n` itself always suffices). -/
def decDigitsGo : ℕ → ℕ → List Char
  | 0, _ => []
  | fuel + 1, n =>
    if n = 0 then [] else decDigitsGo fuel (n / 10) ++ [decDigitChar (n % 10)]

/-- Decimal digit list of a positive natural number (empty for `0`). -/
def decDigits (n : ℕ) : List Char := decDigitsGo n n

/-- Decimal string of a natural number, as produced by a JavaScript
template literal such as `` `Person ${i + 1}` ``. -/
def jsNatStr (n : ℕ) : String := if n = 0 then "0" else String.mk (decDigits n)

/-- The raw amount attached to a participant entry, after JavaScript's
`Number(...)` coercion: `NaN` (this also covers non-numeric strings),
an infinity, or a finite double carrying its integer-cent rounding. -/
inductive JsAmount where
  | nan : JsAmount
  | infinite : JsAmount
  | finite (cents : ℤ) : JsAmount
deriving DecidableEq, Repr

/-- `toCents` from `src/split.js`: non-finite numbers become `0`, finite
numbers are rounded to integer cents (the rounding is carried by the
`finite` constructor, see the module docstring). -/
def toCents : JsAmount → ℤ
  | JsAmount.nan => 0
  | JsAmount.infinite => 0
  | JsAmount.finite c => c

/-- A raw participant entry as submitted through the API: both fields may
be missing.  `name = some s` stands for any JavaScript value whose
`String(...)` conversion is `s`. -/
structure RawParticipant where
  name : Option String
  amount : Option JsAmount
deriving DecidableEq, Repr

/-- A normalized participant produced by `normalizeParticipants`:
trimmed non-empty name, non-negative integer cents, original position. -/
structure Participant where
  name : String
  amountCents : ℤ
  index : ℕ
deriving DecidableEq, Repr

/-- Name normalization from `normalizeParticipants`:
`String(p.name ?? '').trim() || (p : Person ${i+1})`. -/
def normName (o : Option String) (i : ℕ) : String :=
  let s := jsTrim (o.getD "")
  if s = "" then "Person " ++ jsNatStr (i + 1) else s

/-- The loop body of `normalizeParticipants` (`src/split.js` lines 17-27),
carrying the running array index.  A list entry `none` models a falsy
array element, which the source replaces by `{}` (`rawParticipants[i] || {}`).
Entries whose cent amount is negative are skipped (`continue`). -/
def normGo : ℕ → List (Option RawParticipant) → List Participant
  | _, [] => []
  | i, e :: rest =>
    let p := e.getD ⟨none, none⟩
    let nm := normName p.name i
    let c := toCents (p.amount.getD (JsAmount.finite 0))
    if c < 0 then normGo (i + 1) rest
    else ⟨nm, c, i⟩ :: normGo (i + 1) rest

/-- `normalizeParticipants` from `src/split.js`. -/
def normalizeParticipants (raw : List (Option RawParticipant)) : List Participant :=
  normGo 0 raw

/-- Code-point lexicographic comparison of character lists (embedding of
`localeCompare`, used only as a deterministic tie-breaker). -/
def lexLt : List Char → List Char → Bool
  | [], [] => false
  | [], _ :: _ => true
  | _ :: _, [] => false
  | a :: as, b :: bs => if a < b then true else if b < a then false else lexLt as bs

/-- Stable insertion into a sorted list: the new element goes after every
element that the comparator allows to come first, so earlier elements win
ties. -/
def jsSortInsert (le : α → α → Bool) (x : α) : List α → List α
  | [] => [x]
  | y :: ys => if le y x then y :: jsSortInsert le x ys else x :: y :: ys

/-- JavaScript `Array.prototype.sort` with a comparator: embedded as a
stable insertion sort (ECMAScript guarantees stability; the claims only
use that the result is a permutation of the input). `le a b` means the
comparator does not require `b` to come before `a`. -/
def jsSort (le : α → α → Bool) (l : List α) : List α :=
  l.foldl (fun acc x => jsSortInsert le x acc) []

/-- The sort comparator of `computeTargetShares` as a boolean "comes no
later than" relation on `(position, paid, name)` triples: paid descending,
then name ascending, then position ascending. -/
def paidDescLe (a b : ℕ × ℤ × String) : Bool :=
  decide (b.2.1 < a.2.1) ||
    (decide (a.2.1 = b.2.1) &&
      (lexLt a.2.2.data b.2.2.data ||
        (decide (a.2.2 = b.2.2) && decide (a.1 ≤ b.1))))

/-- Indices of the normalized participants sorted by who paid most
(`byPaidDesc` in `computeTargetShares`). -/
def byPaidDesc (ps : List Participant) : List ℕ :=
  (jsSort paidDescLe (ps.enum.map fun x => (x.1, x.2.amountCents, x.2.name))).map
    (fun x => x.1)

/-- The remainder-distribution loop of `computeTargetShares`:
`shares[idx] += 1` for each listed index. -/
def bumpShares (shares : List ℤ) (idxs : List ℕ) : List ℤ :=
  idxs.foldl (fun s i => s.set i (s.getD i 0 + 1)) shares

/-- Share computation on an already-normalized participant list (the body
of `computeTargetShares` after its call to `normalizeParticipants`). -/
def targetSharesOfN (ps : List Participant) : List ℤ :=
  let n := ps.length
  if n = 0 then []
  else
    let total := (ps.map (fun p => p.amountCents)).sum
    let baseShare := Int.fdiv total n
    let remainder := total - baseShare * n
    bumpShares (List.replicate n baseShare) ((byPaidDesc ps).take remainder.toNat)

/-- `computeTargetShares` from `src/split.js`. -/
def computeTargetShares (raw : List (Option RawParticipant)) : List ℤ :=
  targetSharesOfN (normalizeParticipants raw)

/-- A settlement transfer; `amountCents` carries the cent value whose
decimal form (`fromCents`) the source stores in `amount`. -/
structure Transfer where
  from_ : String
  to_ : String
  amountCents : ℤ
deriving DecidableEq, Repr

/-- The greedy settlement loop of `computeTransfers` (`src/split.js`
lines 80-96) on (name, balance) lists: debtors first, creditors second.
A transfer is pushed only when the amount is positive; afterwards the
debtor and/or creditor whose balance reached zero is dropped.  In the
branch where the amount is not positive and neither balance is zero the
source loops forever; that state is unreachable from `computeTransfers`
(debtors are strictly negative, creditors strictly positive) and the
embedding returns `[]` there. -/
def settleGo : ℕ → List (String × ℤ) → List (String × ℤ) → List Transfer
  | 0, _, _ => []
  | _ + 1, [], _ => []
  | _ + 1, _ :: _, [] => []
  | fuel + 1, d :: ds, c :: cs =>
    let a := min c.2 (-d.2)
    if 0 < a then
      Transfer.mk d.1 c.1 a ::
        (if d.2 + a = 0 then
          (if c.2 - a = 0 then settleGo fuel ds cs
           else settleGo fuel ds ((c.1, c.2 - a) :: cs))
        else settleGo fuel ((d.1, d.2 + a) :: ds) cs)
    else
      if d.2 = 0 then (if c.2 = 0 then settleGo fuel ds cs else settleGo fuel ds (c :: cs))
      else if c.2 = 0 then settleGo fuel (d :: ds) cs
      else []

/-- Entry point of the greedy loop: every iteration retires at least one
debtor or creditor, so `d.length + c.length` iterations always finish. -/
def settle (d c : List (String × ℤ)) : List Transfer :=
  settleGo (d.length + c.length) d c

/-- The per-participant balances of `computeTransfers`:
`paid - target share`. -/
def balancesOf (ps : List Participant) (shares : List ℤ) : List (String × ℤ) :=
  (ps.zip shares).map (fun x => (x.1.name, x.1.amountCents - x.2))

/-- Denormalization used inside `computeTransfers`:
`{ name: p.name, amount: fromCents(p.amountCents) }`. -/
def denormP (p : Participant) : Option RawParticipant :=
  some ⟨some p.name, some (JsAmount.finite p.amountCents)⟩

/-- `computeTransfers` from `src/split.js`. -/
def computeTransfers (raw : List (Option RawParticipant)) : List Transfer :=
  let ps := normalizeParticipants raw
  if ps.length ≤ 1 then []
  else
    let shares := computeTargetShares (ps.map denormP)
    let balances := balancesOf ps shares
    let creditors :=
      jsSort (fun x y => decide (y.2 ≤ x.2)) (balances.filter (fun b => decide (0 < b.2)))
    let debtors :=
      jsSort (fun x y => decide (x.2 ≤ y.2)) (balances.filter (fun b => decide (b.2 < 0)))
    settle debtors creditors

/-- Index lookup through the `Map` built by `applyTransfers`
(`new Map(ps.map((p, idx) => [p.name, idx]))`): a later entry with the
same name overwrites an earlier one, so the last index wins. -/
def lastIdxOf (names : List String) (s : String) : Option ℕ :=
  names.enum.foldl (fun acc x => if x.2 = s then some x.1 else acc) none

/-- One iteration of the transfer-application loop of `applyTransfers`:
the sender pays `amountCents` more, the receiver that much less; a
transfer whose endpoints are not both known names is skipped. -/
def applyStep (names : List String) (am : List ℤ) (t : Transfer) : List ℤ :=
  match lastIdxOf names t.from_, lastIdxOf names t.to_ with
  | some fi, some ti =>
    let am1 := am.set fi (am.getD fi 0 + t.amountCents)
    am1.set ti (am1.getD ti 0 - t.amountCents)
  | _, _ => am

/-- `applyTransfers` from `src/split.js`. -/
def applyTransfers (raw : List (Option RawParticipant)) (ts : List Transfer) : List ℤ :=
  let ps := normalizeParticipants raw
  ts.foldl (applyStep (ps.map (fun p => p.name))) (ps.map (fun p => p.amountCents))

example : normalizeParticipants
    [some ⟨some "Alice", some (JsAmount.finite 4000)⟩,
     some ⟨some "Bob", some (JsAmount.finite 0)⟩,
     some ⟨some "Cara", some (JsAmount.finite 2000)⟩] =
    [⟨"Alice", 4000, 0⟩, ⟨"Bob", 0, 1⟩, ⟨"Cara", 2000, 2⟩] := by decide

example : computeTargetShares
    [some ⟨some "Alice", some (JsAmount.finite 4000)⟩,
     some ⟨some "Bob", some (JsAmount.finite 0)⟩,
     some ⟨some "Cara", some (JsAmount.finite 2000)⟩] = [2000, 2000, 2000] := by decide

example : computeTransfers
    [some ⟨some "Alice", some (JsAmount.finite 4000)⟩,
     some ⟨some "Bob", some (JsAmount.finite 0)⟩,
     some ⟨some "Cara", some (JsAmount.finite 2000)⟩] =
    [⟨"Bob", "Alice", 2000⟩] := by decide

/-- A row of the `sessions` table (`database/schema.sql`); `data` holds
the stored `{ participants: [...] }` document as its participants list. -/
structure SessionRow where
  id : String
  ownerId : String
  name : Option String
  createdAt : ℤ
  expiresAt : ℤ
  isActive : Bool
  data : List (Option RawParticipant)
deriving DecidableEq, Repr

/-- The sessions table. -/
abbrev SessionStore := List SessionRow

/-- `getSession` from `database/db.js`: `SELECT ... WHERE id = ?` via the
primary key returns the (first) row with that id, or `null`. -/
def getSession (store : SessionStore) (sessionId : String) : Option SessionRow :=
  store.find? (fun s => s.id = sessionId)

/-- `updateSession` from `database/db.js`:
`UPDATE sessions SET data = ? WHERE id = ?`; returns the new table and
whether any row changed (`result.changes > 0`). -/
def updateSession (store : SessionStore) (sessionId : String)
    (data : List (Option RawParticipant)) : SessionStore × Bool :=
  ((store.map fun s => if s.id = sessionId then { s with data := data } else s),
   decide (0 < (store.filter (fun s => s.id = sessionId)).length))

/-- `deleteSession` from `database/db.js`:
`DELETE FROM sessions WHERE id = ? AND owner_id = ?`; returns the new
table and `result.changes > 0`. -/
def deleteSession (store : SessionStore) (sessionId ownerId : String) :
    SessionStore × Bool :=
  ((store.filter fun s => ¬(s.id = sessionId ∧ s.ownerId = ownerId)),
   decide (0 < (store.filter (fun s => s.id = sessionId ∧ s.ownerId = ownerId)).length))

/-- `extendSessionExpiration` from `database/db.js`: reads the stored
session, checks ownership, then sets
`expires_at = session.expiresAt + additionalHours * 60 * 60 * 1000`
with `UPDATE ... WHERE id = ? AND owner_id = ?`. -/
def extendSessionExpiration (store : SessionStore) (sessionId ownerId : String)
    (additionalHours : ℤ) : SessionStore × Bool :=
  match getSession store sessionId with
  | none => (store, false)
  | some session =>
    if session.ownerId ≠ ownerId then (store, false)
    else
      let newExpiresAt := session.expiresAt + additionalHours * 60 * 60 * 1000
      ((store.map fun s =>
         if s.id = sessionId ∧ s.ownerId = ownerId then { s with expiresAt := newExpiresAt }
         else s),
       decide (0 < (store.filter (fun s => s.id = sessionId ∧ s.ownerId = ownerId)).length))

/-- `cleanupExpiredSessions` from `database/db.js`:
`DELETE FROM sessions WHERE expires_at < ?` with `? = now`; returns the
new table and the number of rows deleted. -/
def cleanupExpiredSessions (store : SessionStore) (now : ℤ) : SessionStore × ℕ :=
  ((store.filter fun s => ¬(s.expiresAt < now)),
   (store.filter (fun s => s.expiresAt < now)).length)

/-- `isSessionValid` from `database/db.js` (the accessibility predicate
gating the public endpoints): the session exists, is active, and
`session.expiresAt > now`. -/
def isSessionValid (store : SessionStore) (sessionId : String) (now : ℤ) : Bool :=
  match getSession store sessionId with
  | none => false
  | some session => session.isActive && decide (now < session.expiresAt)

/-- A JSON value appearing in a response body of the session-data API. -/
inductive JVal where
  | str (v : String) : JVal
  | num (v : ℤ) : JVal
  | bool (v : Bool) : JVal
  | null : JVal
  | parts (v : List (Option RawParticipant)) : JVal
deriving DecidableEq, Repr

/-- JSON encoding of the nullable session name. -/
def jsonName : Option String → JVal
  | some nm => JVal.str nm
  | none => JVal.null

/-- An HTTP response of the public session-data endpoints: status code,
JSON object body (ordered key/value pairs), and the session table after
the request. -/
structure ApiResponse where
  status : ℕ
  body : List (String × JVal)
  store : SessionStore
deriving DecidableEq, Repr

/-- `GET /api/sessions/:sessionId/data` from `server.js`: inaccessible or
unknown sessions get `404 {error: "session_not_found_or_expired"}`;
otherwise the body lists exactly the keys the handler writes
(`sessionId`, `name`, `expiresAt`, `data`).  The `none` fallback models
the `catch` branch (`getSession` cannot fail after the accessibility
check succeeded). -/
def getSessionData (store : SessionStore) (sessionId : String) (now : ℤ) : ApiResponse :=
  if ¬ isSessionValid store sessionId now then
    ⟨404, [("error", JVal.str "session_not_found_or_expired")], store⟩
  else
    match getSession store sessionId with
    | none => ⟨500, [("error", JVal.str "internal_error")], store⟩
    | some session =>
      ⟨200,
       [("sessionId", JVal.str session.id),
        ("name", jsonName session.name),
        ("expiresAt", JVal.num session.expiresAt),
        ("data", JVal.parts session.data)],
       store⟩

/-- `PUT /api/sessions/:sessionId/data` from `server.js`: accessibility
check, then `Array.isArray(participants)` (`none` models a body whose
`participants` is not an array), then `updateSession` with the submitted
list as-is, then a re-read to build the response. -/
def putSessionData (store : SessionStore) (sessionId : String) (now : ℤ)
    (participants : Option (List (Option RawParticipant))) : ApiResponse :=
  if ¬ isSessionValid store sessionId now then
    ⟨404, [("error", JVal.str "session_not_found_or_expired")], store⟩
  else
    match participants with
    | none => ⟨400, [("error", JVal.str "invalid_participants_data")], store⟩
    | some parts =>
      let r := updateSession store sessionId parts
      if r.2 = false then ⟨500, [("error", JVal.str "update_failed")], r.1⟩
      else
        match getSession r.1 sessionId with
        | none => ⟨500, [("error", JVal.str "internal_error")], r.1⟩
        | some session =>
          ⟨200,
           [("sessionId", JVal.str session.id),
            ("data", JVal.parts session.data)],
           r.1⟩

example :
    cleanupExpiredSessions [⟨"s1", "u1", none, 0, 1000, true, []⟩] 1000 =
      ([⟨"s1", "u1", none, 0, 1000, true, []⟩], 0) := by decide

example : isSessionValid [⟨"s1", "u1", none, 0, 1000, true, []⟩] "s1" 999 = true := by decide

example : isSessionValid [⟨"s1", "u1", none, 0, 1000, true, []⟩] "s1" 1000 = false := by decide

/-! ## Session store lemmas -/

/-- `find?` through a row-wise map that does not change the search key. -/
theorem getSession_map_of_id_eq (store : SessionStore) (f : SessionRow → SessionRow)
    (hf : ∀ s, (f s).id = s.id) (sessionId : String) :
    getSession (store.map f) sessionId = (getSession store sessionId).map f := by
  unfold getSession
  rw [List.find?_map]
  have hcomp : ((fun s => decide (s.id = sessionId)) ∘ f) =
      (fun s : SessionRow => decide (s.id = sessionId)) := by
    funext s
    simp [Function.comp, hf]
  rw [hcomp]

/-- A row found by `getSession` has the looked-up id. -/
theorem getSession_id (store : SessionStore) (sessionId : String) (s : SessionRow)
    (h : getSession store sessionId = some s) : s.id = sessionId := by
  have := List.find?_some h
  simpa using this

/-- A row found by `getSession` is in the table. -/
theorem getSession_mem (store : SessionStore) (sessionId : String) (s : SessionRow)
    (h : getSession store sessionId = some s) : s ∈ store :=
  List.mem_of_find?_eq_some h

/-- C5 (confirmed): a session is accessible (`isSessionValid`, the
predicate gating both public endpoints) iff it exists, `isActive` is
true, and `expiresAt` is strictly greater than `now`; in particular a
session with `expiresAt = now` is not accessible, because `now < now`
fails. -/
theorem isSessionValid_iff (store : SessionStore) (sessionId : String) (now : ℤ) :
    isSessionValid store sessionId now = true ↔
      ∃ s, getSession store sessionId = some s ∧ s.isActive = true ∧ now < s.expiresAt := by
  unfold isSessionValid
  cases h : getSession store sessionId with
  | none => simp
  | some s => simp

/-- C3 (code bug): the cleanup sweep uses the strict comparison
`expires_at < now`, so a session whose `expiresAt` equals `now` — which
`isSessionValid` already treats as expired — is kept and not counted,
while the claim (and the repository's own Phase 5 notes on
`cleanupExpiredSessions`) say sessions with `expiresAt <= now` are
deleted. -/
theorem cleanup_keeps_boundary_session :
    cleanupExpiredSessions [⟨"s1", "u1", none, 0, 1000, true, []⟩] 1000 =
      ([⟨"s1", "u1", none, 0, 1000, true, []⟩], 0) ∧
    isSessionValid [⟨"s1", "u1", none, 0, 1000, true, []⟩] "s1" 1000 = false := by
  decide

/-- No row of the table satisfies the owner-checked match, so the
owner-checked `DELETE` leaves the table unchanged and reports `false`. -/
theorem deleteSession_no_match (store : SessionStore) (sessionId ownerId : String)
    (hall : ∀ t ∈ store, ¬(t.id = sessionId ∧ t.ownerId = ownerId)) :
    deleteSession store sessionId ownerId = (store, false) := by
  unfold deleteSession
  have h1 : store.filter (fun t => decide ¬(t.id = sessionId ∧ t.ownerId = ownerId)) = store := by
    apply List.filter_eq_self.mpr
    intro t ht
    simp only [decide_eq_true_eq]
    exact hall t ht
  have h2 : store.filter (fun t => decide (t.id = sessionId ∧ t.ownerId = ownerId)) = [] := by
    apply List.filter_eq_nil_iff.mpr
    intro t ht
    simp only [decide_eq_true_eq]
    exact hall t ht
  rw [h1, h2]
  simp

/-- C6 (confirmed): `deleteSession` removes a row only when the stored
owner matches, returns `false` both for an unknown id and for a foreign
owner, and in those cases leaves the table untouched.  The `Nodup`
hypothesis embeds the `PRIMARY KEY` constraint on `id`. -/
theorem deleteSession_spec (store : SessionStore) (sessionId ownerId : String)
    (hpk : (store.map SessionRow.id).Nodup) :
    (getSession store sessionId = none →
      deleteSession store sessionId ownerId = (store, false)) ∧
    (∀ s, getSession store sessionId = some s → s.ownerId ≠ ownerId →
      deleteSession store sessionId ownerId = (store, false)) ∧
    (∀ s, getSession store sessionId = some s → s.ownerId = ownerId →
      (deleteSession store sessionId ownerId).2 = true ∧
      (deleteSession store sessionId ownerId).1 =
        store.filter (fun t => ¬(t.id = sessionId ∧ t.ownerId = ownerId))) := by
  refine ⟨?_, ?_, ?_⟩
  · intro h
    apply deleteSession_no_match
    intro t ht ⟨hid, _⟩
    have := (List.find?_eq_none.mp h) t ht
    simp only [decide_eq_true_eq] at this
    exact this hid
  · intro s hs hown
    have hsid := getSession_id store sessionId s hs
    have hsmem := getSession_mem store sessionId s hs
    apply deleteSession_no_match
    intro t ht ⟨hid, how⟩
    have ht2 : t = s := List.inj_on_of_nodup_map hpk ht hsmem (hid.trans hsid.symm)
    exact hown (ht2 ▸ how)
  · intro s hs hown
    have hsid := getSession_id store sessionId s hs
    have hsmem := getSession_mem store sessionId s hs
    constructor
    · have hmem : s ∈ store.filter (fun t => decide (t.id = sessionId ∧ t.ownerId = ownerId)) :=
        List.mem_filter.mpr ⟨hsmem, by simp [hsid, hown]⟩
      have hne : store.filter (fun t => decide (t.id = sessionId ∧ t.ownerId = ownerId)) ≠ [] :=
        List.ne_nil_of_mem hmem
      show decide
          (0 < (store.filter (fun t => decide (t.id = sessionId ∧ t.ownerId = ownerId))).length) =
        true
      simp only [decide_eq_true_eq]
      exact List.length_pos.mpr hne
    · rfl

/-- Closed witness for C6 at a two-row table. -/
theorem deleteSession_spec_witness :
    deleteSession [⟨"s1", "u1", none, 0, 1000, true, []⟩,
                   ⟨"s2", "u2", none, 0, 1000, true, []⟩] "s2" "u1" =
      ([⟨"s1", "u1", none, 0, 1000, true, []⟩, ⟨"s2", "u2", none, 0, 1000, true, []⟩],
       false) := by
  exact (deleteSession_spec
      [⟨"s1", "u1", none, 0, 1000, true, []⟩, ⟨"s2", "u2", none, 0, 1000, true, []⟩]
      "s2" "u1" (by decide)).2.1
      ⟨"s2", "u2", none, 0, 1000, true, []⟩ (by decide) (by decide)

/-- One successful extension: with a matching owner the call reports
`true` and rewrites the stored row's `expiresAt` to
`old + hours * 60 * 60 * 1000`. -/
theorem extendSessionExpiration_step (store : SessionStore) (sessionId ownerId : String)
    (hours : ℤ) (s : SessionRow) (h1 : getSession store sessionId = some s)
    (h2 : s.ownerId = ownerId) :
    (extendSessionExpiration store sessionId ownerId hours).2 = true ∧
    getSession (extendSessionExpiration store sessionId ownerId hours).1 sessionId =
      some { s with expiresAt := s.expiresAt + hours * 60 * 60 * 1000 } := by
  have hsid := getSession_id store sessionId s h1
  have hsmem := getSession_mem store sessionId s h1
  unfold extendSessionExpiration
  rw [h1]
  simp only [h2, ne_eq, not_true_eq_false, if_false]
  constructor
  · have hmem : s ∈ store.filter (fun t => decide (t.id = sessionId ∧ t.ownerId = ownerId)) :=
      List.mem_filter.mpr ⟨hsmem, by simp [hsid, h2]⟩
    have hne : store.filter (fun t => decide (t.id = sessionId ∧ t.ownerId = ownerId)) ≠ [] :=
      List.ne_nil_of_mem hmem
    simp only [decide_eq_true_eq]
    exact List.length_pos.mpr hne
  · rw [getSession_map_of_id_eq]
    · rw [h1]
      simp [Option.map_some, hsid, h2]
    · intro t
      by_cases ht : t.id = sessionId ∧ t.ownerId = ownerId <;> simp [ht]

/-- C4 (confirmed): `extendSessionExpiration` adds
`additionalHours * 3600000` to the *stored* `expiresAt` (time is not even
an input of the operation), so two successive 24-hour extensions move the
expiry exactly 48 hours past its original value. -/
theorem extend_twice_adds_48h (store : SessionStore) (sessionId ownerId : String)
    (s : SessionRow) (h1 : getSession store sessionId = some s)
    (h2 : s.ownerId = ownerId) :
    (extendSessionExpiration store sessionId ownerId 24).2 = true ∧
    (extendSessionExpiration
        (extendSessionExpiration store sessionId ownerId 24).1 sessionId ownerId 24).2 = true ∧
    getSession (extendSessionExpiration
        (extendSessionExpiration store sessionId ownerId 24).1 sessionId ownerId 24).1
        sessionId =
      some { s with expiresAt := s.expiresAt + 48 * 60 * 60 * 1000 } := by
  obtain ⟨hb1, hg1⟩ := extendSessionExpiration_step store sessionId ownerId 24 s h1 h2
  obtain ⟨hb2, hg2⟩ := extendSessionExpiration_step
      (extendSessionExpiration store sessionId ownerId 24).1 sessionId ownerId 24
      { s with expiresAt := s.expiresAt + 24 * 60 * 60 * 1000 } hg1 h2
  refine ⟨hb1, hb2, ?_⟩
  rw [hg2]
  simp only [Option.some.injEq, SessionRow.mk.injEq, and_true, true_and]
  ring

/-- Closed witness for C4: two 24-hour extensions of a concrete session
move its expiry from 1000 to 1000 + 48 hours. -/
theorem extend_twice_adds_48h_witness :
    (extendSessionExpiration [⟨"s1", "u1", none, 0, 1000, true, []⟩] "s1" "u1" 24).2 = true ∧
    (extendSessionExpiration
        (extendSessionExpiration [⟨"s1", "u1", none, 0, 1000, true, []⟩] "s1" "u1" 24).1
        "s1" "u1" 24).2 = true ∧
    getSession (extendSessionExpiration
        (extendSessionExpiration [⟨"s1", "u1", none, 0, 1000, true, []⟩] "s1" "u1" 24).1
        "s1" "u1" 24).1 "s1" =
      some { id := "s1", ownerId := "u1", name := none, createdAt := 0,
             expiresAt := 1000 + 48 * 60 * 60 * 1000, isActive := true, data := [] } :=
  extend_twice_adds_48h [⟨"s1", "u1", none, 0, 1000, true, []⟩] "s1" "u1"
    ⟨"s1", "u1", none, 0, 1000, true, []⟩ (by decide) rfl

/-! ## Public endpoint claims -/

/-- C8 counterexample: for a perfectly accessible session the 200 body of
the get-data endpoint has exactly the keys `sessionId`, `name`,
`expiresAt`, `data` — the claimed `isActive` field is absent (the
repository's Phase 2 notes document the same four-field shape). -/
theorem getSessionData_no_isActive_field :
    (getSessionData [⟨"s1", "u1", some "Trip", 0, 2000, true, []⟩] "s1" 1000).status = 200 ∧
    (getSessionData [⟨"s1", "u1", some "Trip", 0, 2000, true, []⟩] "s1" 1000).body.map
        Prod.fst = ["sessionId", "name", "expiresAt", "data"] ∧
    "isActive" ∉ (getSessionData [⟨"s1", "u1", some "Trip", 0, 2000, true, []⟩]
        "s1" 1000).body.map Prod.fst := by
  decide

/-- C8 (amended): for an accessible session the get-data endpoint
responds 200 with body `{sessionId, name, expiresAt, data}` (no
`isActive` key); for an inaccessible or unknown id it responds 404 with
error `session_not_found_or_expired`. -/
theorem getSessionData_spec (store : SessionStore) (sessionId : String) (now : ℤ) :
    (isSessionValid store sessionId now = true →
      ∃ s, getSession store sessionId = some s ∧
        getSessionData store sessionId now =
          ⟨200,
           [("sessionId", JVal.str s.id), ("name", jsonName s.name),
            ("expiresAt", JVal.num s.expiresAt), ("data", JVal.parts s.data)],
           store⟩) ∧
    (isSessionValid store sessionId now = false →
      getSessionData store sessionId now =
        ⟨404, [("error", JVal.str "session_not_found_or_expired")], store⟩) := by
  constructor
  · intro hv
    obtain ⟨s, hg, -, -⟩ := (isSessionValid_iff store sessionId now).mp hv
    refine ⟨s, hg, ?_⟩
    unfold getSessionData
    rw [hv, hg]
    simp
  · intro hv
    unfold getSessionData
    rw [hv]
    simp

/-- Closed witness for C8's amended theorem at a concrete accessible
session. -/
theorem getSessionData_spec_witness :
    ∃ s, getSession [⟨"s1", "u1", none, 0, 2000, true, []⟩] "s1" = some s ∧
      getSessionData [⟨"s1", "u1", none, 0, 2000, true, []⟩] "s1" 1000 =
        ⟨200,
         [("sessionId", JVal.str s.id), ("name", jsonName s.name),
          ("expiresAt", JVal.num s.expiresAt), ("data", JVal.parts s.data)],
         [⟨"s1", "u1", none, 0, 2000, true, []⟩]⟩ :=
  (getSessionData_spec [⟨"s1", "u1", none, 0, 2000, true, []⟩] "s1" 1000).1 (by decide)

/-- C7 counterexample: a participant entry with amount −5.00 submitted to
the public data-replace endpoint of an accessible session is accepted
with status 200 and persisted verbatim — no validation error, and the
store is touched. -/
theorem putSessionData_accepts_negative :
    (putSessionData [⟨"s1", "u1", none, 0, 2000, true, []⟩] "s1" 1000
        (some [some ⟨some "A", some (JsAmount.finite (-500))⟩])).status = 200 ∧
    (putSessionData [⟨"s1", "u1", none, 0, 2000, true, []⟩] "s1" 1000
        (some [some ⟨some "A", some (JsAmount.finite (-500))⟩])).store =
      [⟨"s1", "u1", none, 0, 2000, true, [some ⟨some "A", some (JsAmount.finite (-500))⟩]⟩] := by
  decide

/-- C7 (amended): the write boundary of the public data-replace endpoint
validates only that `participants` is an array.  For an accessible
session, a non-array body is rejected with 400
`invalid_participants_data` and the store is untouched; any array —
negative amounts included — is persisted verbatim with status 200
(entries are neither rejected nor clamped at the boundary; the
settlement engine later drops negative entries, see
`normalizeParticipants`). -/
theorem putSessionData_spec (store : SessionStore) (sessionId : String) (now : ℤ)
    (parts : List (Option RawParticipant))
    (hv : isSessionValid store sessionId now = true) :
    putSessionData store sessionId now none =
      ⟨400, [("error", JVal.str "invalid_participants_data")], store⟩ ∧
    (putSessionData store sessionId now (some parts)).status = 200 ∧
    (putSessionData store sessionId now (some parts)).store =
      store.map (fun s => if s.id = sessionId then { s with data := parts } else s) := by
  obtain ⟨s, hg, -, -⟩ := (isSessionValid_iff store sessionId now).mp hv
  have hsid := getSession_id store sessionId s hg
  have hsmem := getSession_mem store sessionId s hg
  have hchanged : (updateSession store sessionId parts).2 = true := by
    have hmem : s ∈ store.filter (fun t => decide (t.id = sessionId)) :=
      List.mem_filter.mpr ⟨hsmem, by simp [hsid]⟩
    have hne : store.filter (fun t => decide (t.id = sessionId)) ≠ [] :=
      List.ne_nil_of_mem hmem
    unfold updateSession
    simp only [decide_eq_true_eq]
    exact List.length_pos.mpr hne
  have hget2 : getSession (updateSession store sessionId parts).1 sessionId =
      some { s with data := parts } := by
    unfold updateSession
    rw [getSession_map_of_id_eq]
    · rw [hg]
      simp [hsid]
    · intro t
      by_cases ht : t.id = sessionId <;> simp [ht]
  refine ⟨?_, ?_, ?_⟩
  · unfold putSessionData
    rw [hv]
    simp
  · unfold putSessionData
    rw [hv]
    simp only [Bool.true_eq_false, not_true_eq_false, if_false, ite_false, ite_true]
    rw [hchanged]
    simp [hget2]
  · unfold putSessionData
    rw [hv]
    simp only [Bool.true_eq_false, not_true_eq_false, if_false, ite_false, ite_true]
    rw [hchanged]
    simp only [Bool.true_eq_false, if_false, ite_false]
    rw [hget2]
    rfl

/-- Closed witness for C7's amended theorem at a concrete accessible
session and a one-entry array. -/
theorem putSessionData_spec_witness :
    putSessionData [⟨"s1", "u1", none, 0, 2000, true, []⟩] "s1" 1000 none =
      ⟨400, [("error", JVal.str "invalid_participants_data")],
       [⟨"s1", "u1", none, 0, 2000, true, []⟩]⟩ ∧
    (putSessionData [⟨"s1", "u1", none, 0, 2000, true, []⟩] "s1" 1000
        (some [some ⟨some "B", some (JsAmount.finite 100)⟩])).status = 200 ∧
    (putSessionData [⟨"s1", "u1", none, 0, 2000, true, []⟩] "s1" 1000
        (some [some ⟨some "B", some (JsAmount.finite 100)⟩])).store =
      [⟨"s1", "u1", none, 0, 2000, true, []⟩].map
        (fun s => if s.id = "s1" then { s with data := [some ⟨some "B", some (JsAmount.finite 100)⟩] } else s) :=
  putSessionData_spec [⟨"s1", "u1", none, 0, 2000, true, []⟩] "s1" 1000
    [some ⟨some "B", some (JsAmount.finite 100)⟩] (by decide)

/-! ## Settlement engine: normalization claims -/

/-- The normalization loop keeps an entry whose amount is missing or
non-finite, assigning it 0 cents; indices count from the loop's running
start `k`. -/
theorem normGo_keeps_nonfinite (raw : List (Option RawParticipant)) (k i : ℕ)
    (h : i < raw.length)
    (ha : ((raw.get ⟨i, h⟩).getD ⟨none, none⟩).amount = none ∨
          ((raw.get ⟨i, h⟩).getD ⟨none, none⟩).amount = some JsAmount.nan ∨
          ((raw.get ⟨i, h⟩).getD ⟨none, none⟩).amount = some JsAmount.infinite) :
    ∃ q ∈ normGo k raw, q.index = k + i ∧ q.amountCents = 0 := by
  induction raw generalizing k i with
  | nil => simp at h
  | cons e rest ih =>
    cases i with
    | zero =>
      have hc : toCents ((e.getD ⟨none, none⟩).amount.getD (JsAmount.finite 0)) = 0 := by
        simp only [List.get] at ha
        rcases ha with ha | ha | ha <;> rw [ha] <;> rfl
      refine ⟨⟨normName (e.getD ⟨none, none⟩).name k, 0, k⟩, ?_, by simp, rfl⟩
      simp only [normGo, hc]
      simp
    | succ j =>
      have hj : j < rest.length := by simpa using Nat.lt_of_succ_lt_succ h
      have ha2 : ((rest.get ⟨j, hj⟩).getD ⟨none, none⟩).amount = none ∨
          ((rest.get ⟨j, hj⟩).getD ⟨none, none⟩).amount = some JsAmount.nan ∨
          ((rest.get ⟨j, hj⟩).getD ⟨none, none⟩).amount = some JsAmount.infinite := by
        simpa using ha
      obtain ⟨q, hq, hqi, hqa⟩ := ih (k + 1) j hj ha2
      refine ⟨q, ?_, by omega, hqa⟩
      simp only [normGo]
      by_cases hneg : toCents ((e.getD ⟨none, none⟩).amount.getD (JsAmount.finite 0)) < 0 <;>
        simp [hneg, hq]

/-- C10 (confirmed): a participant entry whose amount is missing,
`NaN` (which is what `Number(...)` yields for non-numeric input) or
infinite is kept by the settlement engine's normalization with a paid
amount of exactly 0 cents — it is neither dropped nor an error. -/
theorem normalize_keeps_nonfinite (raw : List (Option RawParticipant)) (i : ℕ)
    (h : i < raw.length)
    (ha : ((raw.get ⟨i, h⟩).getD ⟨none, none⟩).amount = none ∨
          ((raw.get ⟨i, h⟩).getD ⟨none, none⟩).amount = some JsAmount.nan ∨
          ((raw.get ⟨i, h⟩).getD ⟨none, none⟩).amount = some JsAmount.infinite) :
    ∃ q ∈ normalizeParticipants raw, q.index = i ∧ q.amountCents = 0 := by
  have := normGo_keeps_nonfinite raw 0 i h ha
  simpa [normalizeParticipants] using this

/-- Closed witness for C10: a `NaN` amount is kept as 0 cents. -/
theorem normalize_keeps_nonfinite_witness :
    ∃ q ∈ normalizeParticipants [some ⟨some "A", some JsAmount.nan⟩],
      q.index = 0 ∧ q.amountCents = 0 :=
  normalize_keeps_nonfinite [some ⟨some "A", some JsAmount.nan⟩] 0 (by decide)
    (Or.inr (Or.inl rfl))

/-! ## Settlement engine: target share claims -/

/-- Stable insertion is a permutation of consing. -/
theorem jsSortInsert_perm (le : α → α → Bool) (x : α) (l : List α) :
    (jsSortInsert le x l).Perm (x :: l) := by
  induction l with
  | nil => exact List.Perm.refl _
  | cons y ys ih =>
    simp only [jsSortInsert]
    by_cases h : le y x = true
    · simp only [h, if_true]
      exact (ih.cons y).trans (List.Perm.swap x y ys)
    · simp only [h, if_false]
      exact List.Perm.refl _

/-- The insertion-sort fold permutes the accumulator and the input. -/
theorem jsSort_fold_perm (le : α → α → Bool) (l acc : List α) :
    (l.foldl (fun acc x => jsSortInsert le x acc) acc).Perm (acc ++ l) := by
  induction l generalizing acc with
  | nil => simp
  | cons x xs ih =>
    simp only [List.foldl_cons]
    have h1 := ih (jsSortInsert le x acc)
    have h2 : (jsSortInsert le x acc ++ xs).Perm ((x :: acc) ++ xs) :=
      (jsSortInsert_perm le x acc).append_right xs
    have h3 : ((x :: acc) ++ xs).Perm (acc ++ x :: xs) := by
      simpa using (@List.perm_middle _ x acc xs).symm
    exact (h1.trans h2).trans h3

/-- `jsSort` permutes its input. -/
theorem jsSort_perm (le : α → α → Bool) (l : List α) : (jsSort le l).Perm l := by
  simpa [jsSort] using jsSort_fold_perm le l []

/-- The paid-descending index list is a permutation of `range n`. -/
theorem byPaidDesc_perm_range (ps : List Participant) :
    (byPaidDesc ps).Perm (List.range ps.length) := by
  unfold byPaidDesc
  have h1 := (jsSort_perm paidDescLe
      (ps.enum.map fun x => (x.1, x.2.amountCents, x.2.name))).map (fun x => x.1)
  refine h1.trans ?_
  rw [List.map_map]
  have h2 : ((fun x : ℕ × ℤ × String => x.1) ∘ fun x : ℕ × Participant =>
      (x.1, x.2.amountCents, x.2.name)) = Prod.fst := rfl
  rw [h2, List.enum_map_fst]

/-- Sum after a single in-range list update. -/
theorem sum_set_int (l : List ℤ) (i : ℕ) (a : ℤ) (h : i < l.length) :
    (l.set i a).sum = l.sum - l[i] + a := by
  induction l generalizing i with
  | nil => simp at h
  | cons x xs ih =>
    cases i with
    | zero => simp; ring
    | succ j =>
      have hj : j < xs.length := by simpa using Nat.lt_of_succ_lt_succ h
      simp only [List.set_cons_succ, List.sum_cons, ih j hj, List.getElem_cons_succ]
      ring

/-- `bumpShares` preserves length. -/
theorem bumpShares_length (shares : List ℤ) (idxs : List ℕ) :
    (bumpShares shares idxs).length = shares.length := by
  induction idxs generalizing shares with
  | nil => rfl
  | cons i is ih =>
    simp only [bumpShares, List.foldl_cons] at *
    rw [ih]
    exact List.length_set shares i _

/-- Bumping distinct in-range indices adds one per index to the sum. -/
theorem bumpShares_sum (shares : List ℤ) (idxs : List ℕ) (hnd : idxs.Nodup)
    (hlt : ∀ i ∈ idxs, i < shares.length) :
    (bumpShares shares idxs).sum = shares.sum + idxs.length := by
  induction idxs generalizing shares with
  | nil => simp [bumpShares]
  | cons i is ih =>
    have hi : i < shares.length := hlt i (by simp)
    have hstep : bumpShares shares (i :: is) =
        bumpShares (shares.set i (shares.getD i 0 + 1)) is := rfl
    rw [hstep, ih (shares.set i (shares.getD i 0 + 1)) hnd.of_cons
        (by intro j hj; rw [List.length_set]; exact hlt j (by simp [hj]))]
    rw [sum_set_int shares i _ hi, List.getD_eq_getElem shares 0 hi]
    simp
    ring

/-- Bumping distinct in-range indices of a constant list keeps every
element equal to the base or the base plus one. -/
theorem bumpShares_mem (shares : List ℤ) (idxs : List ℕ) (b : ℤ) (hnd : idxs.Nodup)
    (hlt : ∀ i ∈ idxs, i < shares.length)
    (hbase : ∀ x ∈ shares, x = b ∨ x = b + 1)
    (hunb : ∀ i ∈ idxs, shares.getD i 0 = b) :
    ∀ x ∈ bumpShares shares idxs, x = b ∨ x = b + 1 := by
  induction idxs generalizing shares with
  | nil => exact hbase
  | cons i is ih =>
    have hi : i < shares.length := hlt i (by simp)
    have hstep : bumpShares shares (i :: is) =
        bumpShares (shares.set i (shares.getD i 0 + 1)) is := rfl
    rw [hstep]
    refine ih (shares.set i (shares.getD i 0 + 1)) hnd.of_cons ?_ ?_ ?_
    · intro j hj
      rw [List.length_set]
      exact hlt j (by simp [hj])
    · intro x hx
      rcases List.mem_or_eq_of_mem_set hx with hx | hx
      · exact hbase x hx
      · right
        rw [hx, hunb i (by simp)]
    · intro j hj
      have hji : i ≠ j := by
        rintro rfl
        exact (List.nodup_cons.mp hnd).1 hj
      have hjlen : j < shares.length := hlt j (by simp [hj])
      rw [List.getD_eq_getElem _ 0 (by rw [List.length_set]; exact hjlen)]
      rw [List.getElem_set]
      simp only [hji, if_false]
      rw [← List.getD_eq_getElem shares 0 hjlen]
      exact hunb j (by simp [hj])

/-- All cent amounts surviving normalization are non-negative. -/
theorem normGo_nonneg (k : ℕ) (raw : List (Option RawParticipant)) :
    ∀ p ∈ normGo k raw, 0 ≤ p.amountCents := by
  induction raw generalizing k with
  | nil => simp [normGo]
  | cons e rest ih =>
    intro p hp
    simp only [normGo] at hp
    by_cases hneg : toCents ((e.getD ⟨none, none⟩).amount.getD (JsAmount.finite 0)) < 0
    · simp only [hneg, if_true] at hp
      exact ih (k + 1) p hp
    · simp only [hneg, if_false, List.mem_cons] at hp
      rcases hp with hp | hp
      · rw [hp]
        simpa using le_of_not_lt hneg
      · exact ih (k + 1) p hp

/-- Length of the share list. -/
theorem targetSharesOfN_length (ps : List Participant) :
    (targetSharesOfN ps).length = ps.length := by
  unfold targetSharesOfN
  by_cases h : ps.length = 0
  · simp [h]
  · simp only [h, if_false]
    rw [bumpShares_length, List.length_replicate]

/-- The shares of `targetSharesOfN` sum to the total paid amount. -/
theorem targetSharesOfN_sum (ps : List Participant)
    (hpos : ∀ p ∈ ps, 0 ≤ p.amountCents) :
    (targetSharesOfN ps).sum = (ps.map (fun p => p.amountCents)).sum := by
  unfold targetSharesOfN
  by_cases h : ps.length = 0
  · have : ps = [] := List.length_eq_zero.mp h
    simp [h, this]
  · simp only [h, if_false]
    set total := (ps.map (fun p => p.amountCents)).sum with htot
    have hn : 0 < (ps.length : ℤ) := by
      have := Nat.pos_of_ne_zero h
      exact_mod_cast this
    have htotpos : 0 ≤ total := List.sum_nonneg (by
      intro x hx
      obtain ⟨p, hp, rfl⟩ := List.mem_map.mp hx
      exact hpos p hp)
    have hfd : Int.fdiv total ps.length = total / ps.length :=
      Int.fdiv_eq_ediv total (le_of_lt hn)
    set r := total - Int.fdiv total ps.length * ps.length with hr
    have hrmod : r = total % ps.length := by
      rw [hr, hfd, Int.emod_def]
      ring
    have hr0 : 0 ≤ r := by
      rw [hrmod]
      exact Int.emod_nonneg total (ne_of_gt hn)
    have hrn : r < ps.length := by
      rw [hrmod]
      exact Int.emod_lt_of_pos total hn
    have hperm := byPaidDesc_perm_range ps
    have hnodup : (byPaidDesc ps).Nodup := hperm.symm.nodup (List.nodup_range _)
    have hlen : (byPaidDesc ps).length = ps.length := by
      rw [hperm.length_eq, List.length_range]
    have hmem : ∀ i ∈ byPaidDesc ps, i < ps.length := by
      intro i hi
      exact List.mem_range.mp (hperm.mem_iff.mp hi)
    have htknd : ((byPaidDesc ps).take r.toNat).Nodup :=
      List.Nodup.sublist (List.take_sublist _ _) hnodup
    have htkmem : ∀ i ∈ (byPaidDesc ps).take r.toNat, i < (List.replicate ps.length
        (Int.fdiv total ps.length)).length := by
      intro i hi
      rw [List.length_replicate]
      exact hmem i (List.Sublist.mem hi (List.take_sublist _ _))
    rw [bumpShares_sum _ _ htknd htkmem]
    rw [List.sum_replicate, List.length_take, hlen]
    have hrle : r.toNat ≤ ps.length := by
      omega
    rw [min_eq_left hrle]
    have hcast : ((r.toNat : ℕ) : ℤ) = r := Int.toNat_of_nonneg hr0
    rw [nsmul_eq_mul, hcast, hrmod, hfd]
    have := Int.emod_add_ediv total (ps.length : ℤ)
    linarith [this]

/-- All shares are the base share or the base share plus one. -/
theorem targetSharesOfN_mem (ps : List Participant) :
    ∀ x ∈ targetSharesOfN ps,
      x = Int.fdiv ((ps.map (fun p => p.amountCents)).sum) ps.length ∨
      x = Int.fdiv ((ps.map (fun p => p.amountCents)).sum) ps.length + 1 := by
  unfold targetSharesOfN
  by_cases h : ps.length = 0
  · simp [h]
  · simp only [h, if_false]
    set b := Int.fdiv ((ps.map (fun p => p.amountCents)).sum) ps.length with hb
    have hperm := byPaidDesc_perm_range ps
    have hnodup : (byPaidDesc ps).Nodup := hperm.symm.nodup (List.nodup_range _)
    refine bumpShares_mem _ _ b (List.Nodup.sublist (List.take_sublist _ _) hnodup) ?_ ?_ ?_
    · intro i hi
      rw [List.length_replicate]
      exact List.mem_range.mp (hperm.mem_iff.mp (List.Sublist.mem hi (List.take_sublist _ _)))
    · intro x hx
      left
      exact List.eq_of_mem_replicate hx
    · intro i hi
      have hilen : i < ps.length := List.mem_range.mp
        (hperm.mem_iff.mp (List.Sublist.mem hi (List.take_sublist _ _)))
      rw [List.getD_eq_getElem _ 0 (by rw [List.length_replicate]; exact hilen)]
      exact List.getElem_replicate _ _

/-- C1 (confirmed): the target shares sum exactly to the total of the
normalized integer-cent amounts, and any two shares differ by at most
one cent (so in particular the largest and smallest do). -/
theorem computeTargetShares_sum_spread (raw : List (Option RawParticipant)) :
    (computeTargetShares raw).sum =
      ((normalizeParticipants raw).map (fun p => p.amountCents)).sum ∧
    ∀ x ∈ computeTargetShares raw, ∀ y ∈ computeTargetShares raw, x - y ≤ 1 := by
  constructor
  · exact targetSharesOfN_sum (normalizeParticipants raw)
      (normGo_nonneg 0 raw)
  · intro x hx y hy
    rcases targetSharesOfN_mem (normalizeParticipants raw) x hx with h1 | h1 <;>
      rcases targetSharesOfN_mem (normalizeParticipants raw) y hy with h2 | h2 <;>
      rw [h1, h2] <;> omega

/-- Closed witness for C1 on a three-person list with an odd cent. -/
theorem computeTargetShares_sum_spread_witness :
    ((computeTargetShares
        [some ⟨some "A", some (JsAmount.finite 1001)⟩,
         some ⟨some "B", some (JsAmount.finite 1000)⟩,
         some ⟨some "C", some (JsAmount.finite 1000)⟩]).sum =
      ((normalizeParticipants
        [some ⟨some "A", some (JsAmount.finite 1001)⟩,
         some ⟨some "B", some (JsAmount.finite 1000)⟩,
         some ⟨some "C", some (JsAmount.finite 1000)⟩]).map (fun p => p.amountCents)).sum) ∧
    ((1001 : ℤ) ∈ computeTargetShares
        [some ⟨some "A", some (JsAmount.finite 1001)⟩,
         some ⟨some "B", some (JsAmount.finite 1000)⟩,
         some ⟨some "C", some (JsAmount.finite 1000)⟩] ∧
     (1000 : ℤ) ∈ computeTargetShares
        [some ⟨some "A", some (JsAmount.finite 1001)⟩,
         some ⟨some "B", some (JsAmount.finite 1000)⟩,
         some ⟨some "C", some (JsAmount.finite 1000)⟩] ∧
     (1001 : ℤ) - 1000 ≤ 1) := by
  refine ⟨(computeTargetShares_sum_spread _).1, by decide, by decide, ?_⟩
  exact (computeTargetShares_sum_spread
      [some ⟨some "A", some (JsAmount.finite 1001)⟩,
       some ⟨some "B", some (JsAmount.finite 1000)⟩,
       some ⟨some "C", some (JsAmount.finite 1000)⟩]).2 1001 (by decide) 1000 (by decide)

/-! ## Settlement engine: transfer claims -/

/-- Dropping a prefix twice is the same as dropping it once. -/
theorem dropWhile_idem (p : α → Bool) (l : List α) :
    List.dropWhile p (List.dropWhile p l) = List.dropWhile p l := by
  induction l with
  | nil => rfl
  | cons x xs ih =>
    by_cases h : p x = true
    · simp [List.dropWhile_cons, h, ih]
    · simp [List.dropWhile_cons, h]

/-- `dropWhile` keeps a list whose head (if any) fails the predicate. -/
theorem dropWhile_eq_self_of_head (p : α → Bool) (l : List α)
    (h : ∀ c, l.head? = some c → p c = false) : List.dropWhile p l = l := by
  cases l with
  | nil => rfl
  | cons x xs => simp [List.dropWhile_cons, h x rfl]

/-- A string whose first and last characters are not whitespace is fixed
by `jsTrim`. -/
theorem jsTrim_eq_self (s : String)
    (h1 : ∀ c, s.data.head? = some c → jsWhite c = false)
    (h2 : ∀ c, s.data.getLast? = some c → jsWhite c = false) : jsTrim s = s := by
  obtain ⟨l⟩ := s
  unfold jsTrim
  simp only
  rw [dropWhile_eq_self_of_head jsWhite l h1]
  rw [dropWhile_eq_self_of_head jsWhite l.reverse
    (by intro c hc; exact h2 c (by rwa [List.head?_reverse] at hc))]
  rw [List.reverse_reverse]

/-- If `dropWhile` keeps a list, its head (if any) fails the predicate. -/
theorem head_false_of_dropWhile_eq_self (p : α → Bool) (l : List α)
    (h : List.dropWhile p l = l) : ∀ c, l.head? = some c → p c = false := by
  cases l with
  | nil => intro c hc; simp at hc
  | cons x xs =>
    intro c hc
    simp only [List.head?_cons, Option.some.injEq] at hc
    subst hc
    by_contra hp
    have hpx : p x = true := by
      cases hx : p x
      · exact absurd hx hp
      · rfl
    rw [List.dropWhile_cons, if_pos hpx] at h
    have hlen := congrArg List.length h
    have hle := List.Sublist.length_le (@List.dropWhile_sublist _ xs p)
    simp at hlen
    omega

/-- `jsTrim` is idempotent. -/
theorem jsTrim_idem (s : String) : jsTrim (jsTrim s) = jsTrim s := by
  obtain ⟨l⟩ := s
  show jsTrim (String.mk (((l.dropWhile jsWhite).reverse.dropWhile jsWhite).reverse)) = _
  set l1 := l.dropWhile jsWhite with hl1
  set m := l1.reverse.dropWhile jsWhite with hm
  have hl1fix : List.dropWhile jsWhite l1 = l1 := dropWhile_idem jsWhite l
  have hmfix : List.dropWhile jsWhite m = m := by
    rw [hm]
    exact dropWhile_idem jsWhite l1.reverse
  have hpref : m.reverse <+: l1 := by
    have hsuf : m <:+ l1.reverse := hm ▸ List.dropWhile_suffix jsWhite
    have := List.reverse_prefix.mpr hsuf
    rwa [List.reverse_reverse] at this
  have hstep1 : List.dropWhile jsWhite m.reverse = m.reverse := by
    apply dropWhile_eq_self_of_head
    intro c hc
    obtain ⟨t, ht⟩ := hpref
    rcases hmr : m.reverse with _ | ⟨y, ys⟩
    · rw [hmr] at hc
      simp at hc
    · rw [hmr] at hc
      simp only [List.head?_cons, Option.some.injEq] at hc
      subst hc
      rw [hmr] at ht
      have hhead : l1.head? = some y := by
        rw [← ht]
        rfl
      exact head_false_of_dropWhile_eq_self jsWhite l1 hl1fix y hhead
  unfold jsTrim
  simp only
  rw [hstep1, List.reverse_reverse, hmfix]

/-- Decimal digit characters are not whitespace. -/
theorem jsWhite_decDigitChar (d : ℕ) (h : d < 10) : jsWhite (decDigitChar d) = false := by
  interval_cases d <;> decide

/-- The digit loop on a positive number ends in its last decimal digit. -/
theorem decDigitsGo_getLast (fuel n : ℕ) (hf : fuel ≠ 0) (hn : n ≠ 0) :
    (decDigitsGo fuel n).getLast? = some (decDigitChar (n % 10)) := by
  cases fuel with
  | zero => exact absurd rfl hf
  | succ f =>
    simp only [decDigitsGo, hn, if_false]
    rw [List.getLast?_append]
    rfl

/-- The default participant name `Person ${i+1}` is fixed by `jsTrim` and
non-empty: it starts with `P` and ends with a decimal digit. -/
theorem defaultName_good (i : ℕ) :
    jsTrim ("Person " ++ jsNatStr (i + 1)) = "Person " ++ jsNatStr (i + 1) ∧
    ("Person " ++ jsNatStr (i + 1)) ≠ "" := by
  have hjn : jsNatStr (i + 1) = String.mk (decDigits (i + 1)) := by
    unfold jsNatStr
    simp
  have hdata : ("Person " ++ jsNatStr (i + 1)).data =
      "Person ".data ++ (String.mk (decDigits (i + 1))).data := by
    rw [hjn, String.data_append]
  have hlast : (decDigits (i + 1)).getLast? = some (decDigitChar ((i + 1) % 10)) :=
    decDigitsGo_getLast (i + 1) (i + 1) (Nat.succ_ne_zero i) (Nat.succ_ne_zero i)
  constructor
  · apply jsTrim_eq_self
    · intro c hc
      rw [hdata] at hc
      simp only [List.head?] at hc
      have : c = 'P' := by
        injection hc with hc2
        exact hc2.symm
      rw [this]
      decide
    · intro c hc
      rw [hdata, List.getLast?_append] at hc
      have hmk : (String.mk (decDigits (i + 1))).data = decDigits (i + 1) := rfl
      rw [hmk, hlast] at hc
      simp only [Option.or_some, Option.some.injEq] at hc
      rw [← hc]
      exact jsWhite_decDigitChar _ (Nat.mod_lt _ (by omega))
  · intro he
    have := congrArg String.data he
    rw [hdata] at this
    simp at this

/-- Every name produced by normalization is `jsTrim`-fixed and
non-empty. -/
theorem normName_good (o : Option String) (i : ℕ) :
    jsTrim (normName o i) = normName o i ∧ normName o i ≠ "" := by
  unfold normName
  by_cases h : jsTrim (o.getD "") = ""
  · simp only [h, if_true]
    exact defaultName_good i
  · simp only [h, if_false]
    exact ⟨jsTrim_idem _, h⟩

/-- Names surviving normalization are `jsTrim`-fixed and non-empty. -/
theorem normGo_good (k : ℕ) (raw : List (Option RawParticipant)) :
    ∀ p ∈ normGo k raw, jsTrim p.name = p.name ∧ p.name ≠ "" := by
  induction raw generalizing k with
  | nil => simp [normGo]
  | cons e rest ih =>
    intro p hp
    simp only [normGo] at hp
    by_cases hneg : toCents ((e.getD ⟨none, none⟩).amount.getD (JsAmount.finite 0)) < 0
    · simp only [hneg, if_true] at hp
      exact ih (k + 1) p hp
    · simp only [hneg, if_false, List.mem_cons] at hp
      rcases hp with hp | hp
      · rw [hp]
        exact normName_good _ k
      · exact ih (k + 1) p hp

/-- Denormalizing (`fromCents`) and re-normalizing inside
`computeTransfers` preserves every participant's name and cent amount. -/
theorem normGo_denorm (ps : List Participant) (k : ℕ)
    (hgood : ∀ p ∈ ps, jsTrim p.name = p.name ∧ p.name ≠ "")
    (hpos : ∀ p ∈ ps, 0 ≤ p.amountCents) :
    (normGo k (ps.map denormP)).map (fun q => (q.name, q.amountCents)) =
      ps.map (fun p => (p.name, p.amountCents)) := by
  induction ps generalizing k with
  | nil => rfl
  | cons p rest ih =>
    have hpgood := hgood p (by simp)
    have hppos := hpos p (by simp)
    have hname : normName (some p.name) k = p.name := by
      unfold normName
      simp only [Option.getD_some]
      rw [hpgood.1]
      simp [hpgood.2]
    simp only [List.map_cons, denormP, normGo, Option.getD_some, toCents, hname]
    rw [if_neg (by omega)]
    simp only [List.map_cons]
    congr 1
    exact ih (k + 1) (fun q hq => hgood q (by simp [hq])) (fun q hq => hpos q (by simp [hq]))

/-- The paid-descending index order depends only on names and cent
amounts. -/
theorem byPaidDesc_congr (ps qs : List Participant)
    (h : ps.map (fun p => (p.name, p.amountCents)) = qs.map (fun p => (p.name, p.amountCents))) :
    byPaidDesc ps = byPaidDesc qs := by
  have key : ∀ l : List Participant,
      l.enum.map (fun x => (x.1, x.2.amountCents, x.2.name)) =
        (l.map (fun p => (p.name, p.amountCents))).enum.map
          (fun x => (x.1, x.2.2, x.2.1)) := by
    intro l
    rw [List.enum_map, List.map_map]
    rfl
  unfold byPaidDesc
  rw [key ps, key qs, h]

/-- The target shares depend only on names and cent amounts. -/
theorem targetSharesOfN_congr (ps qs : List Participant)
    (h : ps.map (fun p => (p.name, p.amountCents)) = qs.map (fun p => (p.name, p.amountCents))) :
    targetSharesOfN ps = targetSharesOfN qs := by
  have hlen : ps.length = qs.length := by
    have := congrArg List.length h
    simpa using this
  have htot : (ps.map (fun p => p.amountCents)).sum = (qs.map (fun p => p.amountCents)).sum := by
    have h1 : ∀ l : List Participant, l.map (fun p => p.amountCents) =
        (l.map (fun p => (p.name, p.amountCents))).map Prod.snd := by
      intro l
      rw [List.map_map]
      rfl
    rw [h1 ps, h1 qs, h]
  have hby : byPaidDesc ps = byPaidDesc qs := byPaidDesc_congr ps qs h
  unfold targetSharesOfN
  rw [hlen, htot, hby]

/-- The shares computed inside `computeTransfers` (after the
`fromCents`/re-normalize round trip) equal `computeTargetShares` of the
original input. -/
theorem shares_roundtrip (raw : List (Option RawParticipant)) :
    computeTargetShares ((normalizeParticipants raw).map denormP) = computeTargetShares raw := by
  unfold computeTargetShares
  apply targetSharesOfN_congr
  exact normGo_denorm (normalizeParticipants raw) 0 (normGo_good 0 raw) (normGo_nonneg 0 raw)

/-- Net amount a name receives from a transfer list (received minus
sent). -/
def netRecv (nm : String) (ts : List Transfer) : ℤ :=
  (ts.map (fun t => (if t.to_ = nm then t.amountCents else 0) -
    (if t.from_ = nm then t.amountCents else 0))).sum

/-- Total balance carried by a name in a (name, balance) list. -/
def balTotal (nm : String) (l : List (String × ℤ)) : ℤ :=
  ((l.filter (fun x => x.1 = nm)).map Prod.snd).sum

theorem netRecv_nil (nm : String) : netRecv nm [] = 0 := rfl

theorem netRecv_cons (nm : String) (t : Transfer) (ts : List Transfer) :
    netRecv nm (t :: ts) =
      (if t.to_ = nm then t.amountCents else 0) -
        (if t.from_ = nm then t.amountCents else 0) + netRecv nm ts := by
  simp [netRecv]

theorem balTotal_cons (nm : String) (x : String × ℤ) (l : List (String × ℤ)) :
    balTotal nm (x :: l) = (if x.1 = nm then x.2 else 0) + balTotal nm l := by
  unfold balTotal
  by_cases h : x.1 = nm <;> simp [List.filter_cons, h]

theorem balTotal_append (nm : String) (l1 l2 : List (String × ℤ)) :
    balTotal nm (l1 ++ l2) = balTotal nm l1 + balTotal nm l2 := by
  unfold balTotal
  rw [List.filter_append, List.map_append, List.sum_append]

/-- A list of strictly negative integers has a strictly negative sum. -/
theorem sum_neg_of_all_neg (l : List ℤ) (h : ∀ x ∈ l, x < 0) (hne : l ≠ []) :
    l.sum < 0 := by
  induction l with
  | nil => exact absurd rfl hne
  | cons x t ih =>
    by_cases ht : t = []
    · simp [ht]
      exact h x (by simp)
    · have h1 := ih (fun y hy => h y (List.mem_cons_of_mem x hy)) ht
      have h2 := h x (by simp)
      simp only [List.sum_cons]
      linarith

/-- The central invariant of the greedy settlement loop: with strictly
negative debtors, strictly positive creditors, globally distinct names
and a zero total, the emitted transfers give every name a net receipt
equal to its balance. -/
theorem settleGo_netRecv (fuel : ℕ) :
    ∀ (d c : List (String × ℤ)),
      d.length + c.length ≤ fuel →
      (∀ x ∈ d, x.2 < 0) → (∀ x ∈ c, 0 < x.2) →
      ((d ++ c).map Prod.fst).Nodup →
      (d.map Prod.snd).sum + (c.map Prod.snd).sum = 0 →
      ∀ nm, netRecv nm (settleGo fuel d c) = balTotal nm (d ++ c) := by
  induction fuel with
  | zero =>
    intro d c hf hd hc hnd hsum nm
    have hdn : d = [] := List.eq_nil_of_length_eq_zero (by omega)
    have hcn : c = [] := List.eq_nil_of_length_eq_zero (by omega)
    subst hdn
    subst hcn
    simp [settleGo, netRecv, balTotal]
  | succ fuel ih =>
    intro d c hf hd hc hnd hsum nm
    cases d with
    | nil =>
      have hcn : c = [] := by
        by_contra hne
        have hpos : 0 < (c.map Prod.snd).sum := by
          apply List.sum_pos
          · intro x hx
            obtain ⟨y, hy, rfl⟩ := List.mem_map.mp hx
            exact hc y hy
          · simpa using hne
        simp only [List.map_nil, List.sum_nil, zero_add] at hsum
        omega
      subst hcn
      simp [settleGo, netRecv, balTotal]
    | cons dh dt =>
      cases c with
      | nil =>
        exfalso
        have hneg : ((dh :: dt).map Prod.snd).sum < 0 := by
          apply sum_neg_of_all_neg
          · intro x hx
            obtain ⟨y, hy, rfl⟩ := List.mem_map.mp hx
            exact hd y hy
          · simp
        simp only [List.map_nil, List.sum_nil, add_zero] at hsum
        omega
      | cons ch ct =>
        have hdh : dh.2 < 0 := hd dh (by simp)
        have hch : 0 < ch.2 := hc ch (by simp)
        have ha : 0 < min ch.2 (-dh.2) := lt_min hch (by omega)
        have hale : min ch.2 (-dh.2) ≤ ch.2 := min_le_left _ _
        have hale2 : min ch.2 (-dh.2) ≤ -dh.2 := min_le_right _ _
        -- decompose the name hypotheses
        have hnd1 : dh.1 ∉ (dt ++ ch :: ct).map Prod.fst ∧
            ((dt ++ ch :: ct).map Prod.fst).Nodup := by
          rw [List.cons_append, List.map_cons, List.nodup_cons] at hnd
          exact hnd
        have hne_dc : dh.1 ≠ ch.1 := by
          intro he
          exact hnd1.1 (by rw [he]; simp)
        have hmid : ch.1 ∉ dt.map Prod.fst ++ ct.map Prod.fst ∧
            (dt.map Prod.fst ++ ct.map Prod.fst).Nodup := by
          have h0 := hnd1.2
          rw [List.map_append, List.map_cons] at h0
          have h1 := List.nodup_middle.mp h0
          rw [List.nodup_cons] at h1
          exact h1
        have hndtail : ((dt ++ ct).map Prod.fst).Nodup := by
          rw [List.map_append]
          exact hmid.2
        have hsum2 : dh.2 + (dt.map Prod.snd).sum + (ch.2 + (ct.map Prod.snd).sum) = 0 := by
          simp only [List.map_cons, List.sum_cons] at hsum
          linarith
        have hdtail : ∀ x ∈ dt, x.2 < 0 := fun x hx => hd x (List.mem_cons_of_mem dh hx)
        have hctail : ∀ x ∈ ct, 0 < x.2 := fun x hx => hc x (List.mem_cons_of_mem ch hx)
        simp only [settleGo]
        rw [if_pos ha]
        by_cases hdb : dh.2 + min ch.2 (-dh.2) = 0
        · by_cases hcb : ch.2 - min ch.2 (-dh.2) = 0
          · rw [if_pos hdb, if_pos hcb, netRecv_cons]
            rw [ih dt ct (by simp at hf ⊢; omega) hdtail hctail hndtail (by linarith)]
            simp only [List.cons_append, balTotal_cons, balTotal_append]
            by_cases hdm : dh.1 = nm <;> by_cases hcm : ch.1 = nm
            · exact absurd (hdm.trans hcm.symm) hne_dc
            · simp only [hdm, hcm, if_true, if_false]
              linarith
            · simp only [hdm, hcm, if_true, if_false]
              linarith
            · simp only [hdm, hcm, if_false]
              linarith
          · rw [if_pos hdb, if_neg hcb, netRecv_cons]
            have hcbpos : 0 < ch.2 - min ch.2 (-dh.2) := by
              rcases lt_or_eq_of_le (by linarith : (0 : ℤ) ≤ ch.2 - min ch.2 (-dh.2)) with h | h
              · exact h
              · exact absurd h.symm hcb
            have hnames : ((dt ++ (ch.1, ch.2 - min ch.2 (-dh.2)) :: ct).map Prod.fst) =
                ((dt ++ ch :: ct).map Prod.fst) := by
              simp [List.map_append]
            rw [ih dt ((ch.1, ch.2 - min ch.2 (-dh.2)) :: ct)
              (by simp at hf ⊢; omega) hdtail
              (by
                intro x hx
                rcases List.mem_cons.mp hx with hx | hx
                · rw [hx]
                  exact hcbpos
                · exact hctail x hx)
              (by rw [hnames]; exact hnd1.2)
              (by
                simp only [List.map_cons, List.sum_cons]
                linarith)]
            simp only [List.cons_append, balTotal_cons, balTotal_append]
            by_cases hdm : dh.1 = nm <;> by_cases hcm : ch.1 = nm
            · exact absurd (hdm.trans hcm.symm) hne_dc
            · simp only [hdm, hcm, if_true, if_false]
              linarith
            · simp only [hdm, hcm, if_true, if_false]
              linarith
            · simp only [hdm, hcm, if_false]
              linarith
        · rw [if_neg hdb, netRecv_cons]
          have haeq : min ch.2 (-dh.2) = ch.2 := by
            rcases min_choice ch.2 (-dh.2) with h | h
            · exact h
            · exfalso
              apply hdb
              rw [h]
              ring
          have hdbneg : dh.2 + min ch.2 (-dh.2) < 0 := by
            rcases lt_or_eq_of_le (by linarith : dh.2 + min ch.2 (-dh.2) ≤ 0) with h | h
            · exact h
            · exact absurd h hdb
          have hnames : (((dh.1, dh.2 + min ch.2 (-dh.2)) :: dt ++ ct).map Prod.fst) =
              dh.1 :: (dt.map Prod.fst ++ ct.map Prod.fst) := by
            simp [List.map_append]
          rw [ih ((dh.1, dh.2 + min ch.2 (-dh.2)) :: dt) ct
            (by simp at hf ⊢; omega)
            (by
              intro x hx
              rcases List.mem_cons.mp hx with hx | hx
              · rw [hx]
                exact hdbneg
              · exact hdtail x hx)
            hctail
            (by
              rw [hnames, List.nodup_cons]
              constructor
              · intro hmem
                apply hnd1.1
                rw [List.map_append, List.map_cons]
                rcases List.mem_append.mp hmem with h | h
                · exact List.mem_append.mpr (Or.inl h)
                · exact List.mem_append.mpr (Or.inr (List.mem_cons_of_mem _ h))
              · exact hmid.2)
            (by
              simp only [List.map_cons, List.sum_cons]
              linarith)]
          simp only [List.cons_append, balTotal_cons, balTotal_append]
          by_cases hdm : dh.1 = nm <;> by_cases hcm : ch.1 = nm
          · exact absurd (hdm.trans hcm.symm) hne_dc
          · simp only [hdm, hcm, if_true, if_false]
            linarith
          · simp only [hdm, hcm, if_true, if_false]
            linarith
          · simp only [hdm, hcm, if_false]
            linarith

/-- Every emitted transfer has a strictly positive amount: the push is
guarded by `if (amount > 0)`. -/
theorem settleGo_pos (fuel : ℕ) :
    ∀ (d c : List (String × ℤ)), ∀ t ∈ settleGo fuel d c, 0 < t.amountCents := by
  induction fuel with
  | zero => intro d c t ht; simp [settleGo] at ht
  | succ fuel ih =>
    intro d c t ht
    match d, c with
    | [], _ => simp [settleGo] at ht
    | _ :: _, [] => simp [settleGo] at ht
    | dh :: dt, ch :: ct =>
      simp only [settleGo] at ht
      by_cases ha : 0 < min ch.2 (-dh.2)
      · rw [if_pos ha] at ht
        rcases List.mem_cons.mp ht with ht | ht
        · rw [ht]
          exact ha
        · by_cases hdb : dh.2 + min ch.2 (-dh.2) = 0
          · rw [if_pos hdb] at ht
            by_cases hcb : ch.2 - min ch.2 (-dh.2) = 0
            · rw [if_pos hcb] at ht
              exact ih dt ct t ht
            · rw [if_neg hcb] at ht
              exact ih dt _ t ht
          · rw [if_neg hdb] at ht
            exact ih _ ct t ht
      · rw [if_neg ha] at ht
        by_cases hd0 : dh.2 = 0
        · rw [if_pos hd0] at ht
          by_cases hc0 : ch.2 = 0
          · rw [if_pos hc0] at ht
            exact ih dt ct t ht
          · rw [if_neg hc0] at ht
            exact ih dt _ t ht
        · rw [if_neg hd0] at ht
          by_cases hc0 : ch.2 = 0
          · rw [if_pos hc0] at ht
            exact ih _ ct t ht
          · rw [if_neg hc0] at ht
            simp at ht

/-- Senders come from the debtor list and receivers from the creditor
list. -/
theorem settleGo_names (fuel : ℕ) :
    ∀ (d c : List (String × ℤ)), ∀ t ∈ settleGo fuel d c,
      t.from_ ∈ d.map Prod.fst ∧ t.to_ ∈ c.map Prod.fst := by
  induction fuel with
  | zero => intro d c t ht; simp [settleGo] at ht
  | succ fuel ih =>
    intro d c t ht
    match d, c with
    | [], _ => simp [settleGo] at ht
    | _ :: _, [] => simp [settleGo] at ht
    | dh :: dt, ch :: ct =>
      simp only [settleGo] at ht
      by_cases ha : 0 < min ch.2 (-dh.2)
      · rw [if_pos ha] at ht
        rcases List.mem_cons.mp ht with ht | ht
        · rw [ht]
          simp
        · by_cases hdb : dh.2 + min ch.2 (-dh.2) = 0
          · rw [if_pos hdb] at ht
            by_cases hcb : ch.2 - min ch.2 (-dh.2) = 0
            · rw [if_pos hcb] at ht
              obtain ⟨h1, h2⟩ := ih dt ct t ht
              exact ⟨by simp [h1], by simp [h2]⟩
            · rw [if_neg hcb] at ht
              obtain ⟨h1, h2⟩ := ih dt _ t ht
              simp only [List.map_cons] at h2
              refine ⟨by simp [h1], ?_⟩
              simp only [List.map_cons]
              simpa using h2
          · rw [if_neg hdb] at ht
            obtain ⟨h1, h2⟩ := ih _ ct t ht
            simp only [List.map_cons] at h1
            refine ⟨?_, by simp [h2]⟩
            simp only [List.map_cons]
            simpa using h1
      · rw [if_neg ha] at ht
        by_cases hd0 : dh.2 = 0
        · rw [if_pos hd0] at ht
          by_cases hc0 : ch.2 = 0
          · rw [if_pos hc0] at ht
            obtain ⟨h1, h2⟩ := ih dt ct t ht
            exact ⟨by simp [h1], by simp [h2]⟩
          · rw [if_neg hc0] at ht
            obtain ⟨h1, h2⟩ := ih dt _ t ht
            exact ⟨by simp [h1], h2⟩
        · rw [if_neg hd0] at ht
          by_cases hc0 : ch.2 = 0
          · rw [if_pos hc0] at ht
            obtain ⟨h1, h2⟩ := ih _ ct t ht
            exact ⟨h1, by simp [h2]⟩
          · rw [if_neg hc0] at ht
            simp at ht

/-- The `Map`-style fold ignores names that do not occur. -/
theorem lastIdxFold_not_mem (s : String) (names : List String) (h : s ∉ names) :
    ∀ (k : ℕ) (acc : Option ℕ),
      (List.enumFrom k names).foldl (fun acc x => if x.2 = s then some x.1 else acc) acc =
        acc := by
  induction names with
  | nil => intro k acc; rfl
  | cons n ns ih =>
    intro k acc
    rw [List.enumFrom_cons]
    simp only [List.foldl_cons]
    have hns : ¬(n = s) := fun he => h (by rw [← he]; simp)
    rw [if_neg hns]
    exact ih (fun hm => h (List.mem_cons_of_mem _ hm)) (k + 1) acc

/-- On a duplicate-free name list the `Map`-style fold finds the unique
position of the name, offset by the enumeration start. -/
theorem lastIdxFold_mem (names : List String) :
    names.Nodup → ∀ (s : String) (i : ℕ) (hi : i < names.length), names[i] = s →
      ∀ (k : ℕ) (acc : Option ℕ),
        (List.enumFrom k names).foldl (fun acc x => if x.2 = s then some x.1 else acc) acc =
          some (k + i) := by
  induction names with
  | nil => intro _ s i hi; simp at hi
  | cons n ns ih =>
    intro hnd s i hi hs k acc
    rw [List.enumFrom_cons]
    simp only [List.foldl_cons]
    cases i with
    | zero =>
      have hn : n = s := hs
      rw [if_pos hn]
      have hsnot : s ∉ ns := by
        rw [← hn]
        exact (List.nodup_cons.mp hnd).1
      rw [lastIdxFold_not_mem s ns hsnot (k + 1) (some k)]
      simp
    | succ j =>
      have hj : j < ns.length := by simpa using hi
      have hsj : ns[j] = s := by
        rw [← hs]
        simp
      have hn : ¬(n = s) := by
        intro he
        apply (List.nodup_cons.mp hnd).1
        rw [he, ← hsj]
        exact List.getElem_mem hj
      rw [if_neg hn]
      rw [ih (List.nodup_cons.mp hnd).2 s j hj hsj (k + 1) acc]
      congr 1
      omega

/-- Under distinct names, `lastIdxOf` returns the unique position. -/
theorem lastIdxOf_eq (names : List String) (hnd : names.Nodup) (i : ℕ)
    (hi : i < names.length) : lastIdxOf names names[i] = some i := by
  unfold lastIdxOf
  have he : names.enum = List.enumFrom 0 names := rfl
  rw [he]
  have := lastIdxFold_mem names hnd names[i] i hi rfl 0 none
  simpa using this

/-- Applying one transfer preserves the length of the amount list. -/
theorem applyStep_length (names : List String) (am : List ℤ) (t : Transfer) :
    (applyStep names am t).length = am.length := by
  unfold applyStep
  cases lastIdxOf names t.from_ with
  | none => cases lastIdxOf names t.to_ <;> rfl
  | some fi =>
    cases lastIdxOf names t.to_ with
    | none => rfl
    | some ti => simp [List.length_set]

/-- The whole transfer fold preserves the length of the amount list. -/
theorem applyFold_length (names : List String) (ts : List Transfer) (am : List ℤ) :
    (ts.foldl (applyStep names) am).length = am.length := by
  induction ts generalizing am with
  | nil => rfl
  | cons t ts ih =>
    simp only [List.foldl_cons]
    rw [ih, applyStep_length]

/-- Effect of one transfer on a single slot of the amount list. -/
theorem applyStep_getD (names : List String) (hnd : names.Nodup) (am : List ℤ)
    (hlen : am.length = names.length) (t : Transfer) (fi ti : ℕ)
    (hfi : fi < names.length) (hti : ti < names.length)
    (hfe : names[fi] = t.from_) (hte : names[ti] = t.to_)
    (i : ℕ) (hi : i < am.length) :
    (applyStep names am t).getD i 0 =
      am.getD i 0 + (if fi = i then t.amountCents else 0) -
        (if ti = i then t.amountCents else 0) := by
  have hlf : lastIdxOf names t.from_ = some fi := by
    rw [← hfe]
    exact lastIdxOf_eq names hnd fi hfi
  have hlt : lastIdxOf names t.to_ = some ti := by
    rw [← hte]
    exact lastIdxOf_eq names hnd ti hti
  have hstep : applyStep names am t =
      (am.set fi (am.getD fi 0 + t.amountCents)).set ti
        ((am.set fi (am.getD fi 0 + t.amountCents)).getD ti 0 - t.amountCents) := by
    unfold applyStep
    rw [hlf, hlt]
  have hmid : ∀ j, j < am.length →
      (am.set fi (am.getD fi 0 + t.amountCents)).getD j 0 =
        if fi = j then am.getD fi 0 + t.amountCents else am.getD j 0 := by
    intro j hj
    rw [List.getD_eq_getElem _ 0 (by rw [List.length_set]; exact hj), List.getElem_set]
    by_cases hfj : fi = j
    · simp [hfj]
    · simp only [hfj, if_false]
      rw [List.getD_eq_getElem _ 0 hj]
  have hset : ∀ (l : List ℤ) (j : ℕ) (v : ℤ) (i2 : ℕ), i2 < l.length →
      (l.set j v).getD i2 0 = if j = i2 then v else l.getD i2 0 := by
    intro l j v i2 hi2
    rw [List.getD_eq_getElem _ 0 (by rw [List.length_set]; exact hi2), List.getElem_set]
    by_cases hj : j = i2
    · simp [hj]
    · simp only [hj, if_false]
      rw [List.getD_eq_getElem _ 0 hi2]
  rw [hstep, hset _ ti _ i (by rw [List.length_set]; exact hi), hset am fi _ i hi,
    hset am fi _ ti (by omega)]
  by_cases hti2 : ti = i <;> by_cases hfi2 : fi = i <;>
    simp only [hti2, hfi2, if_true, if_false, ite_true, ite_false] <;> ring

/-- Folding the transfer list over the amounts subtracts every name's
net receipt (the sender slot grows, the receiver slot shrinks). -/
theorem applyFold_getD (names : List String) (hnd : names.Nodup) :
    ∀ (ts : List Transfer), (∀ t ∈ ts, t.from_ ∈ names ∧ t.to_ ∈ names) →
      ∀ (am : List ℤ), am.length = names.length → ∀ (i : ℕ), i < am.length →
        (ts.foldl (applyStep names) am).getD i 0 =
          am.getD i 0 - netRecv (names.getD i "") ts := by
  intro ts
  induction ts with
  | nil =>
    intro _ am _ i _
    simp [netRecv]
  | cons t ts ih =>
    intro hts am hlen i hi
    simp only [List.foldl_cons]
    obtain ⟨fi, hfi, hfe⟩ := List.mem_iff_getElem.mp (hts t (by simp)).1
    obtain ⟨ti, hti, hte⟩ := List.mem_iff_getElem.mp (hts t (by simp)).2
    rw [ih (fun u hu => hts u (by simp [hu])) (applyStep names am t)
      (by rw [applyStep_length]; exact hlen) i (by rw [applyStep_length]; exact hi)]
    rw [applyStep_getD names hnd am hlen t fi ti hfi hti hfe hte i hi]
    rw [netRecv_cons]
    have hiname : i < names.length := by omega
    have hfrom : (t.from_ = names.getD i "") ↔ fi = i := by
      rw [List.getD_eq_getElem names "" hiname, ← hfe]
      constructor
      · intro h
        exact (hnd.getElem_inj_iff.mp h.symm).symm
      · intro h
        subst h
        rfl
    have hto : (t.to_ = names.getD i "") ↔ ti = i := by
      rw [List.getD_eq_getElem names "" hiname, ← hte]
      constructor
      · intro h
        exact (hnd.getElem_inj_iff.mp h.symm).symm
      · intro h
        subst h
        rfl
    simp only [hfrom, hto]
    ring

theorem balancesOf_length (ps : List Participant) (sh : List ℤ)
    (hlen : sh.length = ps.length) : (balancesOf ps sh).length = ps.length := by
  unfold balancesOf
  rw [List.length_map, List.length_zip, hlen]
  exact min_self _

theorem balancesOf_fst (ps : List Participant) (sh : List ℤ)
    (hlen : sh.length = ps.length) :
    (balancesOf ps sh).map Prod.fst = ps.map (fun p => p.name) := by
  induction ps generalizing sh with
  | nil => simp [balancesOf]
  | cons p pt ih =>
    cases sh with
    | nil => simp at hlen
    | cons s st =>
      simp only [balancesOf, List.zip_cons_cons, List.map_cons]
      have := ih st (by simpa using hlen)
      simp only [balancesOf] at this
      rw [this]

theorem balancesOf_getD (ps : List Participant) (sh : List ℤ)
    (hlen : sh.length = ps.length) (i : ℕ) (hi : i < ps.length) :
    (balancesOf ps sh).getD i ("", 0) =
      ((ps.getD i ⟨"", 0, 0⟩).name, (ps.getD i ⟨"", 0, 0⟩).amountCents - sh.getD i 0) := by
  have hbl : i < (balancesOf ps sh).length := by
    rw [balancesOf_length ps sh hlen]
    exact hi
  unfold balancesOf at hbl ⊢
  rw [List.getD_eq_getElem _ _ hbl, List.getElem_map, List.getElem_zip]
  rw [List.getD_eq_getElem ps _ hi, List.getD_eq_getElem sh _ (by omega)]

theorem balTotal_zero_of_not_mem (nm : String) (l : List (String × ℤ))
    (h : nm ∉ l.map Prod.fst) : balTotal nm l = 0 := by
  unfold balTotal
  have hfil : l.filter (fun x => decide (x.1 = nm)) = [] := by
    apply List.filter_eq_nil_iff.mpr
    intro x hx
    simp only [decide_eq_true_eq]
    intro he
    exact h (List.mem_map.mpr ⟨x, hx, he⟩)
  rw [hfil]
  rfl

theorem balTotal_getD (l : List (String × ℤ)) (hnd : (l.map Prod.fst).Nodup) :
    ∀ (i : ℕ), i < l.length →
      balTotal (l.getD i ("", 0)).1 l = (l.getD i ("", 0)).2 := by
  induction l with
  | nil => intro i hi; simp at hi
  | cons x t ih =>
    intro i hi
    have hx1 : x.1 ∉ t.map Prod.fst := (List.nodup_cons.mp (by simpa using hnd)).1
    have hndt : (t.map Prod.fst).Nodup := (List.nodup_cons.mp (by simpa using hnd)).2
    cases i with
    | zero =>
      simp only [List.getD_cons_zero]
      rw [balTotal_cons, if_pos rfl, balTotal_zero_of_not_mem x.1 t hx1]
      ring
    | succ j =>
      have hj : j < t.length := by simpa using hi
      simp only [List.getD_cons_succ]
      rw [balTotal_cons]
      have hne : ¬(x.1 = (t.getD j ("", 0)).1) := by
        intro he
        apply hx1
        rw [he]
        have hmem : t.getD j ("", 0) ∈ t := by
          rw [List.getD_eq_getElem t _ hj]
          exact List.getElem_mem hj
        exact List.mem_map.mpr ⟨_, hmem, rfl⟩
      rw [if_neg hne, ih hndt j hj]
      ring

theorem balTotal_perm (nm : String) {l1 l2 : List (String × ℤ)} (h : l1.Perm l2) :
    balTotal nm l1 = balTotal nm l2 := by
  unfold balTotal
  exact ((h.filter _).map _).sum_eq

theorem balTotal_filter_split (l : List (String × ℤ)) (nm : String) :
    balTotal nm (l.filter (fun x => decide (x.2 < 0))) +
      balTotal nm (l.filter (fun x => decide (0 < x.2))) = balTotal nm l := by
  induction l with
  | nil => simp [balTotal]
  | cons x t ih =>
    simp only [List.filter_cons, decide_eq_true_eq]
    rcases lt_trichotomy x.2 0 with hx | hx | hx
    · rw [if_pos hx, if_neg (show ¬(0 : ℤ) < x.2 by omega)]
      simp only [balTotal_cons]
      linarith
    · rw [if_neg (show ¬x.2 < (0 : ℤ) by omega), if_neg (show ¬(0 : ℤ) < x.2 by omega)]
      rw [balTotal_cons]
      have hz : (if x.1 = nm then x.2 else 0) = 0 := by
        by_cases hn : x.1 = nm <;> simp [hn, hx]
      rw [hz]
      linarith
    · rw [if_neg (show ¬x.2 < (0 : ℤ) by omega), if_pos hx]
      simp only [balTotal_cons]
      linarith

theorem sum_snd_filter_split (l : List (String × ℤ)) :
    ((l.filter (fun x => decide (x.2 < 0))).map Prod.snd).sum +
      ((l.filter (fun x => decide (0 < x.2))).map Prod.snd).sum =
      (l.map Prod.snd).sum := by
  induction l with
  | nil => simp
  | cons x t ih =>
    simp only [List.filter_cons, decide_eq_true_eq]
    rcases lt_trichotomy x.2 0 with hx | hx | hx
    · rw [if_pos hx, if_neg (show ¬(0 : ℤ) < x.2 by omega)]
      simp only [List.map_cons, List.sum_cons]
      linarith
    · rw [if_neg (show ¬x.2 < (0 : ℤ) by omega), if_neg (show ¬(0 : ℤ) < x.2 by omega)]
      simp only [List.map_cons, List.sum_cons]
      rw [hx]
      linarith
    · rw [if_neg (show ¬x.2 < (0 : ℤ) by omega), if_pos hx]
      simp only [List.map_cons, List.sum_cons]
      linarith

theorem names_filter_split_nodup (l : List (String × ℤ))
    (hnd : (l.map Prod.fst).Nodup) :
    ((l.filter (fun x => decide (x.2 < 0)) ++
        l.filter (fun x => decide (0 < x.2))).map Prod.fst).Nodup := by
  induction l with
  | nil => simp
  | cons x t ih =>
    have hx1 : x.1 ∉ t.map Prod.fst := (List.nodup_cons.mp (by simpa using hnd)).1
    have ihh := ih (List.nodup_cons.mp (by simpa using hnd)).2
    have hsub : ∀ y, y ∈ (t.filter (fun x => decide (x.2 < 0)) ++
        t.filter (fun x => decide (0 < x.2))).map Prod.fst → y ∈ t.map Prod.fst := by
      intro y hy
      obtain ⟨z, hz, rfl⟩ := List.mem_map.mp hy
      rcases List.mem_append.mp hz with hz | hz
      · exact List.mem_map.mpr ⟨z, List.mem_of_mem_filter hz, rfl⟩
      · exact List.mem_map.mpr ⟨z, List.mem_of_mem_filter hz, rfl⟩
    simp only [List.filter_cons, decide_eq_true_eq]
    rcases lt_trichotomy x.2 0 with hx | hx | hx
    · rw [if_pos hx, if_neg (show ¬(0 : ℤ) < x.2 by omega)]
      simp only [List.cons_append, List.map_cons, List.nodup_cons]
      exact ⟨fun hmem => hx1 (hsub _ hmem), ihh⟩
    · rw [if_neg (show ¬x.2 < (0 : ℤ) by omega), if_neg (show ¬(0 : ℤ) < x.2 by omega)]
      exact ihh
    · rw [if_neg (show ¬x.2 < (0 : ℤ) by omega), if_pos hx]
      rw [List.map_append, List.map_cons]
      apply List.nodup_middle.mpr
      constructor
      · intro y hy heq
        apply hx1
        rw [heq]
        apply hsub
        rw [List.map_append]
        exact hy
      · rw [← List.map_append]
        exact ihh

theorem balancesOf_snd_sum (ps : List Participant) (sh : List ℤ)
    (hlen : sh.length = ps.length) :
    ((balancesOf ps sh).map Prod.snd).sum =
      (ps.map (fun p => p.amountCents)).sum - sh.sum := by
  induction ps generalizing sh with
  | nil =>
    have : sh = [] := List.eq_nil_of_length_eq_zero (by simpa using hlen)
    subst this
    simp [balancesOf]
  | cons p pt ih =>
    cases sh with
    | nil => simp at hlen
    | cons s st =>
      simp only [balancesOf, List.zip_cons_cons, List.map_cons, List.sum_cons]
      have := ih st (by simpa using hlen)
      simp only [balancesOf] at this
      rw [this]
      ring

/-- Disjoint debtor and creditor names give transfers with distinct
endpoints. -/
theorem settleGo_from_ne_to (fuel : ℕ) :
    ∀ (d c : List (String × ℤ)), (∀ x ∈ d, ∀ y ∈ c, x.1 ≠ y.1) →
      ∀ t ∈ settleGo fuel d c, t.from_ ≠ t.to_ := by
  induction fuel with
  | zero => intro d c _ t ht; simp [settleGo] at ht
  | succ fuel ih =>
    intro d c hdisj t ht
    match d, c with
    | [], _ => simp [settleGo] at ht
    | _ :: _, [] => simp [settleGo] at ht
    | dh :: dt, ch :: ct =>
      simp only [settleGo] at ht
      by_cases ha : 0 < min ch.2 (-dh.2)
      · rw [if_pos ha] at ht
        rcases List.mem_cons.mp ht with ht | ht
        · rw [ht]
          exact hdisj dh (by simp) ch (by simp)
        · by_cases hdb : dh.2 + min ch.2 (-dh.2) = 0
          · rw [if_pos hdb] at ht
            by_cases hcb : ch.2 - min ch.2 (-dh.2) = 0
            · rw [if_pos hcb] at ht
              exact ih dt ct (fun x hx y hy => hdisj x (by simp [hx]) y (by simp [hy])) t ht
            · rw [if_neg hcb] at ht
              refine ih dt ((ch.1, ch.2 - min ch.2 (-dh.2)) :: ct) ?_ t ht
              intro x hx y hy
              rcases List.mem_cons.mp hy with hy | hy
              · rw [hy]
                exact hdisj x (by simp [hx]) ch (by simp)
              · exact hdisj x (by simp [hx]) y (by simp [hy])
          · rw [if_neg hdb] at ht
            refine ih ((dh.1, dh.2 + min ch.2 (-dh.2)) :: dt) ct ?_ t ht
            intro x hx y hy
            rcases List.mem_cons.mp hx with hx | hx
            · rw [hx]
              exact hdisj dh (by simp) y (by simp [hy])
            · exact hdisj x (by simp [hx]) y (by simp [hy])
      · rw [if_neg ha] at ht
        by_cases hd0 : dh.2 = 0
        · rw [if_pos hd0] at ht
          by_cases hc0 : ch.2 = 0
          · rw [if_pos hc0] at ht
            exact ih dt ct (fun x hx y hy => hdisj x (by simp [hx]) y (by simp [hy])) t ht
          · rw [if_neg hc0] at ht
            exact ih dt (ch :: ct) (fun x hx y hy => hdisj x (by simp [hx]) y hy) t ht
        · rw [if_neg hd0] at ht
          by_cases hc0 : ch.2 = 0
          · rw [if_pos hc0] at ht
            exact ih (dh :: dt) ct (fun x hx y hy => hdisj x hx y (by simp [hy])) t ht
          · rw [if_neg hc0] at ht
            simp at ht

/-- Unfolding of `computeTransfers` past the `n <= 1` guard. -/
theorem computeTransfers_eq (raw : List (Option RawParticipant))
    (hn : ¬(normalizeParticipants raw).length ≤ 1) :
    computeTransfers raw =
      settle
        (jsSort (fun x y => decide (x.2 ≤ y.2))
          ((balancesOf (normalizeParticipants raw)
            (computeTargetShares ((normalizeParticipants raw).map denormP))).filter
              (fun b => decide (b.2 < 0))))
        (jsSort (fun x y => decide (y.2 ≤ x.2))
          ((balancesOf (normalizeParticipants raw)
            (computeTargetShares ((normalizeParticipants raw).map denormP))).filter
              (fun b => decide (0 < b.2)))) := by
  simp only [computeTransfers]
  rw [if_neg hn]

/-- C9 counterexample: with two participants sharing the normalized name
`A`, the greedy settlement emits a self-transfer `A -> A`. -/
theorem computeTransfers_self_transfer :
    computeTransfers
        [some ⟨some "A", some (JsAmount.finite 0)⟩,
         some ⟨some "A", some (JsAmount.finite 300)⟩] =
      [⟨"A", "A", 150⟩] ∧
    ∃ t ∈ computeTransfers
        [some ⟨some "A", some (JsAmount.finite 0)⟩,
         some ⟨some "A", some (JsAmount.finite 300)⟩], t.from_ = t.to_ := by
  decide

/-- C9 (amended): every transfer emitted by `computeTransfers` has a
strictly positive amount; and whenever the normalized participant names
are pairwise distinct, sender and receiver differ.  (With duplicate
names a self-transfer can occur, see the counterexample.) -/
theorem computeTransfers_pos_and_distinct (raw : List (Option RawParticipant)) :
    (∀ t ∈ computeTransfers raw, 0 < t.amountCents) ∧
    (((normalizeParticipants raw).map (fun p => p.name)).Nodup →
      ∀ t ∈ computeTransfers raw, t.from_ ≠ t.to_) := by
  by_cases hn : (normalizeParticipants raw).length ≤ 1
  · have he : computeTransfers raw = [] := by
      simp only [computeTransfers]
      rw [if_pos hn]
    rw [he]
    simp
  · rw [computeTransfers_eq raw hn]
    have hlenS : (computeTargetShares ((normalizeParticipants raw).map denormP)).length =
        (normalizeParticipants raw).length := by
      rw [shares_roundtrip raw]
      exact targetSharesOfN_length (normalizeParticipants raw)
    constructor
    · intro t ht
      exact settleGo_pos _ _ _ t ht
    · intro hnd t ht
      refine settleGo_from_ne_to _ _ _ ?_ t ht
      intro x hx y hy
      have hx2 : x ∈ (balancesOf (normalizeParticipants raw)
          (computeTargetShares ((normalizeParticipants raw).map denormP))).filter
            (fun b => decide (b.2 < 0)) := (jsSort_perm _ _).mem_iff.mp hx
      have hy2 : y ∈ (balancesOf (normalizeParticipants raw)
          (computeTargetShares ((normalizeParticipants raw).map denormP))).filter
            (fun b => decide (0 < b.2)) := (jsSort_perm _ _).mem_iff.mp hy
      have hxneg : x.2 < 0 := by simpa using List.of_mem_filter hx2
      have hypos : 0 < y.2 := by simpa using List.of_mem_filter hy2
      have hndB : ((balancesOf (normalizeParticipants raw)
          (computeTargetShares ((normalizeParticipants raw).map denormP))).map
            Prod.fst).Nodup := by
        rw [balancesOf_fst _ _ hlenS]
        exact hnd
      intro heq
      have hxy := List.inj_on_of_nodup_map hndB (List.mem_of_mem_filter hx2)
        (List.mem_of_mem_filter hy2) heq
      rw [hxy] at hxneg
      omega

/-- Closed witness for C9 on a three-person list with distinct names. -/
theorem computeTransfers_pos_and_distinct_witness :
    (∀ t ∈ computeTransfers
        [some ⟨some "X", some (JsAmount.finite 10000)⟩,
         some ⟨some "Y", some (JsAmount.finite 0)⟩,
         some ⟨some "Z", some (JsAmount.finite 0)⟩], 0 < t.amountCents) ∧
    (∀ t ∈ computeTransfers
        [some ⟨some "X", some (JsAmount.finite 10000)⟩,
         some ⟨some "Y", some (JsAmount.finite 0)⟩,
         some ⟨some "Z", some (JsAmount.finite 0)⟩], t.from_ ≠ t.to_) :=
  ⟨(computeTransfers_pos_and_distinct
      [some ⟨some "X", some (JsAmount.finite 10000)⟩,
       some ⟨some "Y", some (JsAmount.finite 0)⟩,
       some ⟨some "Z", some (JsAmount.finite 0)⟩]).1,
   (computeTransfers_pos_and_distinct
      [some ⟨some "X", some (JsAmount.finite 10000)⟩,
       some ⟨some "Y", some (JsAmount.finite 0)⟩,
       some ⟨some "Z", some (JsAmount.finite 0)⟩]).2 (by decide)⟩

/-- C2 counterexample: with two participants sharing the normalized name
`B`, applying the computed transfers does not reproduce the target
shares — the name-keyed lookup in `applyTransfers` collapses both to the
last index, so the self-transfer cancels out. -/
theorem applyTransfers_dup_names_drift :
    applyTransfers
        [some ⟨some "B", some (JsAmount.finite 0)⟩,
         some ⟨some "B", some (JsAmount.finite 300)⟩]
        (computeTransfers
          [some ⟨some "B", some (JsAmount.finite 0)⟩,
           some ⟨some "B", some (JsAmount.finite 300)⟩]) = [0, 300] ∧
    computeTargetShares
        [some ⟨some "B", some (JsAmount.finite 0)⟩,
         some ⟨some "B", some (JsAmount.finite 300)⟩] = [150, 150] ∧
    applyTransfers
        [some ⟨some "B", some (JsAmount.finite 0)⟩,
         some ⟨some "B", some (JsAmount.finite 300)⟩]
        (computeTransfers
          [some ⟨some "B", some (JsAmount.finite 0)⟩,
           some ⟨some "B", some (JsAmount.finite 300)⟩]) ≠
      computeTargetShares
        [some ⟨some "B", some (JsAmount.finite 0)⟩,
         some ⟨some "B", some (JsAmount.finite 300)⟩] := by
  decide

/-- C2 (amended): whenever the normalized participant names are pairwise
distinct, applying every transfer of `computeTransfers` to the
normalized amounts reproduces `computeTargetShares` exactly, with no
residual drift.  (With duplicate names the name-keyed replay loses
money, see the counterexample.) -/
theorem applyTransfers_reproduces_shares (raw : List (Option RawParticipant))
    (hnd : ((normalizeParticipants raw).map (fun p => p.name)).Nodup) :
    applyTransfers raw (computeTransfers raw) = computeTargetShares raw := by
  by_cases hn : (normalizeParticipants raw).length ≤ 1
  · have he : computeTransfers raw = [] := by
      simp only [computeTransfers]
      rw [if_pos hn]
    rw [he]
    have ha : applyTransfers raw [] =
        (normalizeParticipants raw).map (fun p => p.amountCents) := rfl
    rw [ha]
    rcases hps : normalizeParticipants raw with _ | ⟨p, t⟩
    · show ([] : List Participant).map (fun p => p.amountCents) = computeTargetShares raw
      unfold computeTargetShares
      rw [hps]
      rfl
    · cases t with
      | nil =>
        show ([p] : List Participant).map (fun p => p.amountCents) = computeTargetShares raw
        unfold computeTargetShares
        rw [hps]
        unfold targetSharesOfN
        simp only [List.length_singleton, List.map_cons, List.map_nil, List.sum_cons,
          List.sum_nil, add_zero, one_ne_zero, if_false, Nat.cast_one, Int.fdiv_one,
          mul_one, sub_self, Int.toNat_zero, List.take_zero]
        rfl
      | cons q t2 =>
        exfalso
        rw [hps] at hn
        simp at hn
  · have hsh : computeTargetShares ((normalizeParticipants raw).map denormP) =
        targetSharesOfN (normalizeParticipants raw) := shares_roundtrip raw
    have hlenS : (targetSharesOfN (normalizeParticipants raw)).length =
        (normalizeParticipants raw).length :=
      targetSharesOfN_length (normalizeParticipants raw)
    have hBeq : balancesOf (normalizeParticipants raw)
        (computeTargetShares ((normalizeParticipants raw).map denormP)) =
        balancesOf (normalizeParticipants raw)
          (targetSharesOfN (normalizeParticipants raw)) := by
      rw [hsh]
    set ps := normalizeParticipants raw with hpsdef
    set sh := targetSharesOfN ps with hshdef
    set B := balancesOf ps sh with hBdef
    have hBfst : B.map Prod.fst = ps.map (fun p => p.name) := balancesOf_fst ps sh hlenS
    have hndB : (B.map Prod.fst).Nodup := by
      rw [hBfst]
      exact hnd
    have hBlen : B.length = ps.length := balancesOf_length ps sh hlenS
    have hBsum : (B.map Prod.snd).sum = 0 := by
      rw [hBdef, balancesOf_snd_sum ps sh hlenS, hshdef,
        targetSharesOfN_sum ps (normGo_nonneg 0 raw)]
      ring
    set D := jsSort (fun x y => decide (x.2 ≤ y.2)) (B.filter (fun b => decide (b.2 < 0)))
      with hDdef
    set C := jsSort (fun x y => decide (y.2 ≤ x.2)) (B.filter (fun b => decide (0 < b.2)))
      with hCdef
    have hpermD : D.Perm (B.filter (fun b => decide (b.2 < 0))) := jsSort_perm _ _
    have hpermC : C.Perm (B.filter (fun b => decide (0 < b.2))) := jsSort_perm _ _
    have hpermDC : (D ++ C).Perm
        (B.filter (fun b => decide (b.2 < 0)) ++ B.filter (fun b => decide (0 < b.2))) :=
      hpermD.append hpermC
    have hDneg : ∀ x ∈ D, x.2 < 0 := fun x hx => by
      simpa using List.of_mem_filter (hpermD.mem_iff.mp hx)
    have hCpos : ∀ x ∈ C, 0 < x.2 := fun x hx => by
      simpa using List.of_mem_filter (hpermC.mem_iff.mp hx)
    have hndDC : ((D ++ C).map Prod.fst).Nodup :=
      ((hpermDC.map Prod.fst).symm).nodup (names_filter_split_nodup B hndB)
    have hsumDC : (D.map Prod.snd).sum + (C.map Prod.snd).sum = 0 := by
      rw [(hpermD.map Prod.snd).sum_eq, (hpermC.map Prod.snd).sum_eq]
      exact (sum_snd_filter_split B).trans hBsum
    have hnet : ∀ nm, netRecv nm (settle D C) = balTotal nm B := by
      intro nm
      have h0 := settleGo_netRecv (D.length + C.length) D C le_rfl hDneg hCpos hndDC
        hsumDC nm
      rw [show settle D C = settleGo (D.length + C.length) D C from rfl, h0,
        balTotal_perm nm hpermDC, balTotal_append, balTotal_filter_split]
    have htn : ∀ t ∈ settle D C,
        t.from_ ∈ ps.map (fun p => p.name) ∧ t.to_ ∈ ps.map (fun p => p.name) := by
      intro t ht
      obtain ⟨h1, h2⟩ := settleGo_names (D.length + C.length) D C t ht
      constructor
      · rw [← hBfst]
        obtain ⟨x, hx, he⟩ := List.mem_map.mp h1
        exact he ▸ List.mem_map.mpr ⟨x, List.mem_of_mem_filter (hpermD.mem_iff.mp hx), rfl⟩
      · rw [← hBfst]
        obtain ⟨x, hx, he⟩ := List.mem_map.mp h2
        exact he ▸ List.mem_map.mpr ⟨x, List.mem_of_mem_filter (hpermC.mem_iff.mp hx), rfl⟩
    have hct : computeTargetShares raw = sh := rfl
    rw [computeTransfers_eq raw hn, hBeq, ← hDdef, ← hCdef]
    have happly : applyTransfers raw (settle D C) =
        (settle D C).foldl (applyStep (ps.map (fun p => p.name)))
          (ps.map (fun p => p.amountCents)) := rfl
    rw [happly, hct]
    apply List.ext_getElem
    · rw [applyFold_length, List.length_map, hlenS]
    · intro i h1 h2
      have hiL : i < ps.length := by
        rw [applyFold_length, List.length_map] at h1
        exact h1
      rw [← List.getD_eq_getElem _ 0 h1, ← List.getD_eq_getElem _ 0 h2]
      rw [applyFold_getD (ps.map (fun p => p.name)) hnd (settle D C) htn
        (ps.map (fun p => p.amountCents)) (by rw [List.length_map, List.length_map]) i
        (by rw [List.length_map]; exact hiL)]
      rw [hnet]
      have hname_i : (ps.map (fun p => p.name)).getD i "" = (B.getD i ("", 0)).1 := by
        rw [hBdef, balancesOf_getD ps sh hlenS i hiL,
          List.getD_eq_getElem _ "" (by rw [List.length_map]; exact hiL), List.getElem_map,
          List.getD_eq_getElem ps _ hiL]
      rw [hname_i, balTotal_getD B hndB i (by rw [hBlen]; exact hiL)]
      rw [hBdef, balancesOf_getD ps sh hlenS i hiL]
      have hcents_i : (ps.map (fun p => p.amountCents)).getD i 0 =
          (ps.getD i ⟨"", 0, 0⟩).amountCents := by
        rw [List.getD_eq_getElem _ 0 (by rw [List.length_map]; exact hiL), List.getElem_map,
          List.getD_eq_getElem ps _ hiL]
      rw [hcents_i]
      simp

/-- Closed witness for C2 on a three-person list with distinct names. -/
theorem applyTransfers_reproduces_shares_witness :
    applyTransfers
        [some ⟨some "Alice", some (JsAmount.finite 4000)⟩,
         some ⟨some "Bob", some (JsAmount.finite 0)⟩,
         some ⟨some "Cara", some (JsAmount.finite 2000)⟩]
        (computeTransfers
          [some ⟨some "Alice", some (JsAmount.finite 4000)⟩,
           some ⟨some "Bob", some (JsAmount.finite 0)⟩,
           some ⟨some "Cara", some (JsAmount.finite 2000)⟩]) =
      computeTargetShares
        [some ⟨some "Alice", some (JsAmount.finite 4000)⟩,
         some ⟨some "Bob", some (JsAmount.finite 0)⟩,
         some ⟨some "Cara", some (JsAmount.finite 2000)⟩] :=
  applyTransfers_reproduces_shares
    [some ⟨some "Alice", some (JsAmount.finite 4000)⟩,
     some ⟨some "Bob", some (JsAmount.finite 0)⟩,
     some ⟨some "Cara", some (JsAmount.finite 2000)⟩] (by decide)
